import Mathlib

/-!
Verification of the Indonesian Rupiah currency codec
(`@indodev/toolkit`, modules `currency/parse`, `currency/format`,
`currency/words`, `currency/utils`).

Numbers are embedded as exact rationals (`ℚ`); JavaScript strings are
embedded as `List Char` (the inputs of interest are ASCII).  Each
definition mirrors one function of the TypeScript source; theorems at the
end of the file settle the specification claims.
-/

namespace IndoDev

/-- Whitespace test used by the embeddings of JavaScript `trim` and
`parseFloat` (ASCII whitespace characters). -/
def isWs (c : Char) : Bool :=
  c = ' ' || c = '\t' || c = '\n' || c = '\r' || c = Char.ofNat 11 || c = Char.ofNat 12

/-- Decimal digit test (`[0-9]`, as in the source's regexes), via code
points. -/
def isDigitCh (c : Char) : Bool :=
  48 ≤ c.toNat && c.toNat ≤ 57

/-- Numeric value of a decimal digit character. -/
def charVal (c : Char) : ℕ := c.toNat - 48

/-- Embedding of JavaScript `String.prototype.trim`. -/
def jsTrim (l : List Char) : List Char :=
  ((l.dropWhile isWs).reverse.dropWhile isWs).reverse

/-- Embedding of JavaScript `String.prototype.toLowerCase` (ASCII). -/
def jsToLower (l : List Char) : List Char :=
  l.map Char.toLower

/-- Does the second list start with the first one? -/
def listStartsWith : List Char → List Char → Bool
  | [], _ => true
  | _ :: _, [] => false
  | a :: as, b :: bs => a = b && listStartsWith as bs

/-- Embedding of JavaScript `String.prototype.includes`:
`containsSub needle hay` is true iff `needle` occurs contiguously in `hay`. -/
def containsSub (needle : List Char) : List Char → Bool
  | [] => listStartsWith needle []
  | c :: rest => listStartsWith needle (c :: rest) || containsSub needle rest

/-- Embedding of JavaScript `String.prototype.replace` with a plain
single-character pattern: replaces only the first occurrence. -/
def replaceFirstChar (a b : Char) : List Char → List Char
  | [] => []
  | c :: rest => if c = a then b :: rest else c :: replaceFirstChar a b rest

/-- Embedding of `cleaned.replace(/rp/gi, '')` for an already lowercased
string: removes every (leftmost-first, non-overlapping) occurrence of
`"rp"`. -/
def removeRp : List Char → List Char
  | [] => []
  | [c] => [c]
  | c1 :: c2 :: rest =>
    if c1 = 'r' && c2 = 'p' then removeRp rest else c1 :: removeRp (c2 :: rest)

/-- Embedding of JavaScript `String.prototype.split` with a
single-character separator (keeps empty segments, as JS does). -/
def splitChar (sep : Char) : List Char → List (List Char)
  | [] => [[]]
  | c :: rest =>
    let ps := splitChar sep rest
    if c = sep then [] :: ps else (c :: ps.headD []) :: ps.tail

/-- Embedding of JavaScript `String.prototype.lastIndexOf` for a single
character: index of the last occurrence, `-1` if absent. -/
def lastIndexOfChar (c : Char) : List Char → ℤ
  | [] => -1
  | x :: rest =>
    let r := lastIndexOfChar c rest
    if 0 ≤ r then r + 1 else if x = c then 0 else -1

/-- Value of a big-endian string of decimal digits. -/
def charsToNat (l : List Char) : ℕ :=
  l.foldl (fun a c => 10 * a + charVal c) 0

/-- Signed digit run after the `e`/`E` of a JavaScript float literal:
the scale factor it denotes, `1` when no digit follows (JS `parseFloat`
then stops before the `e`). -/
def jsExpTail : List Char → ℚ
  | [] => 1
  | c :: rest =>
    if c = '-' then
      let d := rest.takeWhile isDigitCh
      if d.isEmpty then 1 else (10 : ℚ) ^ (-(charsToNat d : ℤ))
    else if c = '+' then
      let d := rest.takeWhile isDigitCh
      if d.isEmpty then 1 else (10 : ℚ) ^ (charsToNat d)
    else
      let d := (c :: rest).takeWhile isDigitCh
      if d.isEmpty then 1 else (10 : ℚ) ^ (charsToNat d)

/-- Exponent suffix of a JavaScript float literal (`e`/`E`, optional sign,
digits); returns the scale factor it denotes. -/
def jsExpFactor (l : List Char) : ℚ :=
  match l with
  | [] => 1
  | c :: rest => if c = 'e' || c = 'E' then jsExpTail rest else 1

/-- Unsigned part of the embedding of JavaScript `parseFloat`: longest
prefix `Digits ['.' Digits] [Exponent]`; `none` models `NaN` (no digit at
all).  (`Infinity` is not modelled: every string this codec feeds to
`parseFloat` has been lowercased, and `parseFloat` only accepts the
capitalized spelling.) -/
def jsParseFloatMag (l : List Char) : Option ℚ :=
  let d1 := l.takeWhile isDigitCh
  let r1 := l.drop d1.length
  match r1 with
  | [] => if d1.isEmpty then none else some ((charsToNat d1 : ℚ) * jsExpFactor r1)
  | c :: r2 =>
    if c = '.' then
      let d2 := r2.takeWhile isDigitCh
      if d1.isEmpty && d2.isEmpty then none
      else
        some ((charsToNat d1 + (charsToNat d2 : ℚ) / 10 ^ d2.length) *
          jsExpFactor (r2.drop d2.length))
    else if d1.isEmpty then none
    else some ((charsToNat d1 : ℚ) * jsExpFactor r1)

/-- Embedding of JavaScript `parseFloat` (without `Infinity`, see
`jsParseFloatMag`): leading whitespace skipped, optional sign, longest
numeric prefix; `none` models `NaN`. -/
def jsParseFloat (l : List Char) : Option ℚ :=
  match l.dropWhile isWs with
  | [] => jsParseFloatMag []
  | c :: rest =>
    if c = '-' then (jsParseFloatMag rest).map (fun q => -q)
    else if c = '+' then jsParseFloatMag rest
    else jsParseFloatMag (c :: rest)

/-- The compact-unit table of `parseRupiah`, in the source's object order
(`triliun`, `miliar`, `juta`, `ribu`). -/
def compactUnits : List (List Char × ℚ) :=
  [("triliun".data, 1000000000000), ("miliar".data, 1000000000),
   ("juta".data, 1000000), ("ribu".data, 1000)]

/-- Greedy tail of the token regex `-?\d+[,.]?\d*` starting at a digit:
digits, then optionally one `,`/`.` and further digits. -/
def numTokenTail (l : List Char) : List Char :=
  let d1 := l.takeWhile isDigitCh
  match l.drop d1.length with
  | c :: r2 => if c = ',' || c = '.' then d1 ++ c :: r2.takeWhile isDigitCh else d1
  | [] => d1

/-- Embedding of `cleaned.match(/(-?\d+[,.]?\d*)/)`: the leftmost match of
the token regex, `none` if the string never matches. -/
def firstNumToken : List Char → Option (List Char)
  | [] => none
  | c :: rest =>
    if isDigitCh c then some (numTokenTail (c :: rest))
    else if c = '-' && isDigitCh (rest.headD ' ') then some ('-' :: numTokenTail rest)
    else firstNumToken rest

/-- The compact-unit loop of `parseRupiah`: for each unit in order, if the
keyword occurs and a numeric token is found, the token (comma turned into
a dot) times the unit's multiplier is returned; the matched token always
contains a digit, so its `parseFloat` cannot be `NaN` (the `getD 0` is
unreachable). -/
def tryCompact : List (List Char × ℚ) → List Char → Option ℚ
  | [], _ => none
  | (u, m) :: rest, cleaned =>
    if containsSub u cleaned then
      match firstNumToken cleaned with
      | some t => some (((jsParseFloat (replaceFirstChar ',' '.' t)).getD 0) * m)
      | none => tryCompact rest cleaned
    else tryCompact rest cleaned

/-- `formatted.trim().toLowerCase()` as computed by `parseRupiah`. -/
def cleanedOf (s : String) : List Char := jsToLower (jsTrim s.data)

/-- `cleaned.replace(/rp/gi, '').trim()` as computed by `parseRupiah`. -/
def numStrOf (s : String) : List Char := jsTrim (removeRp (cleanedOf s))

/-- The plain/grouped-notation branch of `parseRupiah` (the spec's
`parsePlain`): separator disambiguation followed by `parseFloat`. -/
def parsePlain (numStr : List Char) : Option ℚ :=
  let hasDot := numStr.any (fun c => c = '.')
  let hasComma := numStr.any (fun c => c = ',')
  let canon :=
    if hasDot && hasComma then
      if lastIndexOfChar ',' numStr > lastIndexOfChar '.' numStr then
        replaceFirstChar ',' '.' (numStr.filter (fun c => c ≠ '.'))
      else
        numStr.filter (fun c => c ≠ ',')
    else if hasComma then
      let parts := splitChar ',' numStr
      if parts.length = 2 && (parts.getD 1 []).length ≤ 2 then
        replaceFirstChar ',' '.' numStr
      else
        numStr.filter (fun c => c ≠ ',')
    else if hasDot then
      let parts := splitChar '.' numStr
      if decide (parts.length > 2) || (parts.length = 2 && decide ((parts.getD 1 []).length > 2)) then
        numStr.filter (fun c => c ≠ '.')
      else numStr
    else numStr
  jsParseFloat canon

/-- Embedding of `parseRupiah` (`currency/parse.ts`): `none` is the `null`
sentinel. -/
def parseRupiah (s : String) : Option ℚ :=
  if s.data.isEmpty then none
  else
    match tryCompact compactUnits (cleanedOf s) with
    | some v => some v
    | none => parsePlain (numStrOf s)

/-- Big-endian decimal digits of `n`, with explicit fuel (the fuel only
bounds the recursion depth; `n + 1` always suffices). -/
def natToCharsAux : ℕ → ℕ → List Char
  | 0, _ => []
  | fuel + 1, n => if n = 0 then [] else natToCharsAux fuel (n / 10) ++ [Nat.digitChar (n % 10)]

/-- Decimal rendering of a natural number, as JavaScript renders
integers (`0` renders as `"0"`). -/
def natToChars (n : ℕ) : List Char :=
  if n = 0 then ['0'] else natToCharsAux (n + 1) n

/-- Left-pad a digit string with zeros to length `p`. -/
def padZeros (p : ℕ) (l : List Char) : List Char :=
  List.replicate (p - l.length) '0' ++ l

/-- Smallest `k` with `den ∣ 10 ^ k` (searched up to 40, far beyond any
denominator produced by this codec): the number of decimal digits needed
to write a rational with denominator `den` exactly. -/
def decExp (den : ℕ) : ℕ :=
  ((List.range 40).find? (fun k => decide (den ∣ 10 ^ k))).getD 40

/-- Embedding of JavaScript `Math.round`: nearest integer, exact halves
rounding toward positive infinity. -/
def jsRound (q : ℚ) : ℤ := ⌊q + 1 / 2⌋

/-- Embedding of JavaScript `Number.prototype.toString` for numbers whose
exact value has a terminating decimal expansion (every value produced by
this codec does; the exponential notation JS switches to at `1e21` is not
modelled — all theorems stay far below it). -/
def jsToString (q : ℚ) : List Char :=
  let sign : List Char := if q < 0 then ['-'] else []
  let k := decExp q.den
  let m := q.num.natAbs * 10 ^ k / q.den
  if k = 0 then sign ++ natToChars m
  else sign ++ natToChars (m / 10 ^ k) ++ '.' :: padZeros k (natToChars (m % 10 ^ k))

/-- Embedding of `Number.prototype.toFixed`: the integer nearest to
`q * 10 ^ p` (ties to the larger), rendered with exactly `p` digits after
the point. -/
def jsToFixed (q : ℚ) (p : ℕ) : List Char :=
  let n : ℤ := ⌊q * 10 ^ p + 1 / 2⌋
  let sign : List Char := if n < 0 then ['-'] else []
  let a := n.natAbs
  if p = 0 then sign ++ natToChars a
  else sign ++ natToChars (a / 10 ^ p) ++ '.' :: padZeros p (natToChars (a % 10 ^ p))

/-- JavaScript regex word character (`\w` = `[A-Za-z0-9_]`), via code
points. -/
def isWordChar (c : Char) : Bool :=
  (48 ≤ c.toNat && c.toNat ≤ 57) || (65 ≤ c.toNat && c.toNat ≤ 90) ||
    (97 ≤ c.toNat && c.toNat ≤ 122) || c = '_'

/-- Embedding of the grouping substitution
`.replace(/\B(?=(\d{3})+(?!\d))/g, sep)`: after a word character, the
lookahead succeeds exactly when the digit run that follows is nonempty and
of length divisible by 3. -/
def group3 (sep : Char) : List Char → List Char
  | [] => []
  | c :: rest =>
    let r := (rest.takeWhile isDigitCh).length
    if isWordChar c && decide (0 < r) && r % 3 = 0 then c :: sep :: group3 sep rest
    else c :: group3 sep rest

/-- Options record of `formatRupiah` (`currency/types.ts`), with the
source's defaults. -/
structure RupiahOptions where
  symbol : Bool := true
  decimal : Bool := false
  separator : Char := '.'
  decimalSeparator : Char := ','
  spaceAfterSymbol : Bool := true
  precision : Option ℕ := none

/-- Embedding of `formatRupiah` (`currency/format.ts`). -/
def formatRupiah (amount : ℚ) (options : RupiahOptions) : String :=
  let precision := options.precision.getD (if options.decimal then 2 else 0)
  let isNegative := amount < 0
  let absAmount := |amount|
  let result : List Char :=
    if options.decimal then
      let factor : ℚ := 10 ^ precision
      let rounded : ℚ := (jsRound (absAmount * factor) : ℚ) / factor
      if 0 < precision then
        let parts := splitChar '.' (jsToFixed rounded precision)
        group3 options.separator (parts.headD []) ++
          options.decimalSeparator :: parts.getD 1 []
      else
        group3 options.separator (jsToString rounded)
    else
      group3 options.separator (natToChars (⌊absAmount⌋.toNat))
  let result := if isNegative then '-' :: result else result
  let result :=
    if options.symbol then
      (if options.spaceAfterSymbol then "Rp ".data else "Rp".data) ++ result
    else result
  String.mk result

/-- Embedding of the internal `formatCompactValue`: one-decimal rounding,
integers rendered via `toFixed(0)`, fractional values via `toString` with
the dot turned into a comma. -/
def formatCompactValue (value : ℚ) (unit : List Char) : List Char :=
  let rounded : ℚ := (jsRound (value * 10) : ℚ) / 10
  if rounded.den = 1 then jsToFixed rounded 0 ++ ' ' :: unit
  else replaceFirstChar '.' ',' (jsToString rounded) ++ ' ' :: unit

/-- Embedding of `formatCompact` (`currency/format.ts`). -/
def formatCompact (amount : ℚ) : String :=
  let isNegative := amount < 0
  let a := |amount|
  let result : List Char :=
    if 1000000000000 ≤ a then formatCompactValue (a / 1000000000000) "triliun".data
    else if 1000000000 ≤ a then formatCompactValue (a / 1000000000) "miliar".data
    else if 1000000 ≤ a then formatCompactValue (a / 1000000) "juta".data
    else if 100000 ≤ a then formatCompactValue (a / 1000) "ribu".data
    else if 1000 ≤ a then group3 '.' (jsToString a)
    else jsToString a
  let result := if isNegative then '-' :: result else result
  String.mk ("Rp ".data ++ result)

/-- The rounding granularity of `roundToClean` (`currency/types.ts`,
`RoundUnit`). -/
inductive RoundUnit where
  | ribu
  | ratusRibu
  | juta
deriving DecidableEq

/-- The divisor table of `roundToClean`. -/
def roundUnitDivisor : RoundUnit → ℚ
  | RoundUnit.ribu => 1000
  | RoundUnit.ratusRibu => 100000
  | RoundUnit.juta => 1000000

/-- Embedding of `roundToClean` (`currency/utils.ts`):
`Math.round(amount / divisor) * divisor`. -/
def roundToClean (amount : ℚ) (unit : RoundUnit) : ℚ :=
  (jsRound (amount / roundUnitDivisor unit) : ℚ) * roundUnitDivisor unit

/-- Options record of `toWords` (`currency/types.ts`), with the source's
defaults. -/
structure WordOptions where
  uppercase : Bool := false
  withCurrency : Bool := true

/-- `BASIC_NUMBERS` table of `currency/words.ts` (0-9). -/
def BASIC_NUMBERS : List String :=
  ["", "satu", "dua", "tiga", "empat", "lima", "enam", "tujuh", "delapan", "sembilan"]

/-- `TEENS` table of `currency/words.ts` (10-19). -/
def TEENS : List String :=
  ["sepuluh", "sebelas", "dua belas", "tiga belas", "empat belas", "lima belas",
   "enam belas", "tujuh belas", "delapan belas", "sembilan belas"]

/-- `TENS` table of `currency/words.ts` (20-90). -/
def TENS : List String :=
  ["", "", "dua puluh", "tiga puluh", "empat puluh", "lima puluh", "enam puluh",
   "tujuh puluh", "delapan puluh", "sembilan puluh"]

/-- Embedding of the internal `convertTwoDigits` (1-99). -/
def convertTwoDigits (num : ℕ) : String :=
  if num = 0 then ""
  else if num < 10 then BASIC_NUMBERS.getD num ""
  else if num < 20 then TEENS.getD (num - 10) ""
  else
    let ones := num % 10
    let result := TENS.getD (num / 10) ""
    if 0 < ones then result ++ " " ++ BASIC_NUMBERS.getD ones "" else result

/-- Embedding of the internal `convertGroup` (0-999). -/
def convertGroup (num : ℕ) : String :=
  if num = 0 then ""
  else
    let hundreds := num / 100
    let result :=
      if 0 < hundreds then
        if hundreds = 1 then "seratus" else BASIC_NUMBERS.getD hundreds "" ++ " ratus"
      else ""
    let remainder := num % 100
    if 0 < remainder then
      (if result ≠ "" then result ++ " " else result) ++ convertTwoDigits remainder
    else result

/-- The group-decomposition-and-join loop of `toWords`: the words for a
non-negative integer amount, without sign, currency suffix or
capitalization. -/
def wordsCore (absAmount : ℕ) : String :=
  let triliun := absAmount / 1000000000000
  let miliar := absAmount % 1000000000000 / 1000000000
  let juta := absAmount % 1000000000 / 1000000
  let ribu := absAmount % 1000000 / 1000
  let sisa := absAmount % 1000
  let w := if 0 < triliun then convertGroup triliun ++ " triliun" else ""
  let w :=
    if 0 < miliar then (if w ≠ "" then w ++ " " else w) ++ convertGroup miliar ++ " miliar"
    else w
  let w :=
    if 0 < juta then (if w ≠ "" then w ++ " " else w) ++ convertGroup juta ++ " juta"
    else w
  let w :=
    if 0 < ribu then
      (if w ≠ "" then w ++ " " else w) ++
        (if ribu = 1 then "seribu" else convertGroup ribu ++ " ribu")
    else w
  let w := if 0 < sisa then (if w ≠ "" then w ++ " " else w) ++ convertGroup sisa else w
  w

/-- Embedding of the internal `capitalize` of `currency/words.ts`:
uppercases the first character only. -/
def capitalizeWord (s : String) : String :=
  match s.data with
  | [] => ""
  | c :: rest => String.mk (c.toUpper :: rest)

/-- Embedding of `toWords` (`currency/words.ts`). -/
def toWords (amount : ℚ) (options : WordOptions) : String :=
  if amount = 0 then
    let r := if options.withCurrency then "nol rupiah" else "nol"
    if options.uppercase then capitalizeWord r else r
  else
    let isNegative := amount < 0
    let absAmount := (⌊|amount|⌋).toNat
    let words := wordsCore absAmount
    let words := if isNegative then "minus " ++ words else words
    let words := if options.withCurrency then words ++ " rupiah" else words
    if options.uppercase then capitalizeWord words else words

/-! ### Definitions taken from the specification's wording

These do not model source code; they render sentences of the spec as
functions, to be compared against what the source actually computes. -/

/-- Separator character of the disambiguation policy (`.` or `,`). -/
def isSepCh (c : Char) : Bool := c = '.' || c = ','

/-- Remove every separator character. -/
def stripSeps (l : List Char) : List Char := l.filter (fun c => !isSepCh c)

/-- Helper for `claimCanonical`, walking the string from the right: the
first separator met (the rightmost separator of the string) becomes the
decimal dot and every other separator is dropped. -/
def canonRev : List Char → List Char
  | [] => []
  | c :: rest => if isSepCh c then '.' :: stripSeps rest else c :: canonRev rest

/-- The spec's description of mixed-separator disambiguation ("the
separator that appears last is treated as the decimal marker; every
earlier occurrence of either punctuation character is removed"), as a
string transformation to compare with what `parsePlain` computes. -/
def claimCanonical (l : List Char) : List Char := (canonRev l.reverse).reverse

/-- Does the rightmost separator of the string occur exactly once in it?
(The condition under which the spec's disambiguation sentence and the
implementation agree.) -/
def rightmostSepKindUnique (l : List Char) : Bool :=
  match l.reverse.find? isSepCh with
  | some c => l.count c = 1
  | none => false

/-- Half of the smallest increment displayed by `formatCompact` at a given
magnitude: the unit branches round to one decimal place of the unit, the
branches below `100000` render the value exactly. -/
def compactHalfIncrement (a : ℚ) : ℚ :=
  if 1000000000000 ≤ |a| then 50000000000
  else if 1000000000 ≤ |a| then 50000000
  else if 1000000 ≤ |a| then 50000
  else if 100000 ≤ |a| then 50
  else 1 / 2

/-! ### Character and digit-string lemmas -/

theorem digitChar_isDigitCh {d : ℕ} (h : d < 10) : isDigitCh (Nat.digitChar d) = true := by
  interval_cases d <;> decide

theorem charVal_digitChar {d : ℕ} (h : d < 10) : charVal (Nat.digitChar d) = d := by
  interval_cases d <;> decide

theorem isDigitCh_toNat {c : Char} (h : isDigitCh c = true) :
    48 ≤ c.toNat ∧ c.toNat ≤ 57 := by
  simpa [isDigitCh] using h

theorem digit_ne_dot {c : Char} (h : isDigitCh c = true) : c ≠ '.' := by
  rintro rfl; revert h; decide

theorem digit_ne_comma {c : Char} (h : isDigitCh c = true) : c ≠ ',' := by
  rintro rfl; revert h; decide

theorem digit_ne_dash {c : Char} (h : isDigitCh c = true) : c ≠ '-' := by
  rintro rfl; revert h; decide

theorem digit_ne_plus {c : Char} (h : isDigitCh c = true) : c ≠ '+' := by
  rintro rfl; revert h; decide

theorem digit_not_ws {c : Char} (h : isDigitCh c = true) : isWs c = false := by
  rcases isDigitCh_toNat h with ⟨h1, h2⟩
  simp only [isWs, Bool.or_eq_false_iff, decide_eq_false_iff_not]
  refine ⟨⟨⟨⟨⟨?_, ?_⟩, ?_⟩, ?_⟩, ?_⟩, ?_⟩ <;> rintro rfl <;> revert h <;> decide

theorem digit_isWordChar {c : Char} (h : isDigitCh c = true) : isWordChar c = true := by
  rcases isDigitCh_toNat h with ⟨h1, h2⟩
  simp only [isWordChar, Bool.or_eq_true, decide_eq_true_eq, Bool.and_eq_true]
  exact Or.inl (Or.inl (Or.inl ⟨by simpa using h1, by simpa using h2⟩))

theorem takeWhile_all {p : Char → Bool} {l : List Char} (h : ∀ c ∈ l, p c = true) :
    l.takeWhile p = l := by
  induction l with
  | nil => rfl
  | cons c rest ih =>
    rw [List.takeWhile_cons, if_pos (h c (by simp))]
    rw [ih (fun x hx => h x (by simp [hx]))]

theorem natToCharsAux_zero (f : ℕ) : natToCharsAux f 0 = [] := by
  cases f <;> simp [natToCharsAux]

theorem natToCharsAux_step {f n : ℕ} (h0 : n ≠ 0) :
    natToCharsAux (f + 1) n = natToCharsAux f (n / 10) ++ [Nat.digitChar (n % 10)] := by
  simp [natToCharsAux, h0]

theorem natToCharsAux_digits :
    ∀ f n, n ≤ f → ∀ c ∈ natToCharsAux f n, isDigitCh c = true := by
  intro f
  induction f with
  | zero =>
    intro n hn c hc
    interval_cases n
    simp [natToCharsAux] at hc
  | succ f ih =>
    intro n hn c hc
    by_cases h0 : n = 0
    · subst h0; simp [natToCharsAux] at hc
    · rw [natToCharsAux_step h0] at hc
      rcases List.mem_append.mp hc with h | h
      · exact ih (n / 10) (by
          have := Nat.div_lt_self (Nat.pos_of_ne_zero h0) (show 1 < 10 by norm_num)
          omega) c h
      · rcases List.mem_singleton.mp h with rfl
        exact digitChar_isDigitCh (Nat.mod_lt n (by norm_num))

theorem foldl_natToCharsAux :
    ∀ f n, n ≤ f → ∀ a : ℕ,
      List.foldl (fun acc c => 10 * acc + charVal c) a (natToCharsAux f n) =
        a * 10 ^ (natToCharsAux f n).length + n := by
  intro f
  induction f with
  | zero =>
    intro n hn a
    interval_cases n
    simp [natToCharsAux]
  | succ f ih =>
    intro n hn a
    by_cases h0 : n = 0
    · subst h0; simp [natToCharsAux]
    · have hdiv : n / 10 < n := Nat.div_lt_self (Nat.pos_of_ne_zero h0) (by norm_num)
      rw [natToCharsAux_step h0, List.foldl_append, ih (n / 10) (by omega) a]
      have hmod := charVal_digitChar (Nat.mod_lt n (show 0 < 10 by norm_num))
      have hdm := Nat.div_add_mod n 10
      simp only [List.foldl, List.length_append, List.length_singleton, hmod, pow_succ]
      generalize (10 : ℕ) ^ (natToCharsAux f (n / 10)).length = X
      ring_nf
      omega

theorem natToCharsAux_ne_nil {f n : ℕ} (hn : n ≤ f) (h0 : n ≠ 0) :
    natToCharsAux f n ≠ [] := by
  cases f with
  | zero => omega
  | succ f => rw [natToCharsAux_step h0]; simp

theorem natToCharsAux_lt : ∀ f n, n ≤ f → n < 10 ^ (natToCharsAux f n).length := by
  intro f
  induction f with
  | zero => intro n hn; interval_cases n; simp [natToCharsAux]
  | succ f ih =>
    intro n hn
    by_cases h0 : n = 0
    · subst h0; simp [natToCharsAux]
    · have hdiv : n / 10 < n := Nat.div_lt_self (Nat.pos_of_ne_zero h0) (by norm_num)
      rw [natToCharsAux_step h0]
      have := ih (n / 10) (by omega)
      simp only [List.length_append, List.length_singleton, pow_succ]
      have hdm := Nat.div_add_mod n 10
      have hm : n % 10 < 10 := Nat.mod_lt n (by norm_num)
      generalize hX : (10 : ℕ) ^ (natToCharsAux f (n / 10)).length = X at this
      omega

theorem natToCharsAux_ge :
    ∀ f n, n ≤ f → n ≠ 0 → 10 ^ ((natToCharsAux f n).length - 1) ≤ n := by
  intro f
  induction f with
  | zero => intro n hn h0; omega
  | succ f ih =>
    intro n hn h0
    have hdiv : n / 10 < n := Nat.div_lt_self (Nat.pos_of_ne_zero h0) (by norm_num)
    rw [natToCharsAux_step h0]
    by_cases hq : n / 10 = 0
    · rw [hq, natToCharsAux_zero]
      simpa using Nat.pos_of_ne_zero h0
    · have hlen := natToCharsAux_ne_nil (f := f) (n := n / 10) (by omega) hq
      have h1 : 1 ≤ (natToCharsAux f (n / 10)).length := by
        cases hL : natToCharsAux f (n / 10) with
        | nil => exact absurd hL hlen
        | cons x xs => simp
      have := ih (n / 10) (by omega) hq
      simp only [List.length_append, List.length_singleton]
      have h2 : 10 ^ ((natToCharsAux f (n / 10)).length + 1 - 1) =
          10 ^ ((natToCharsAux f (n / 10)).length - 1) * 10 := by
        rw [Nat.add_sub_cancel, ← pow_succ]
        congr 1
        omega
      rw [h2]
      calc 10 ^ ((natToCharsAux f (n / 10)).length - 1) * 10 ≤ n / 10 * 10 :=
            Nat.mul_le_mul_right 10 this
        _ ≤ n := Nat.div_mul_le_self n 10

theorem natToChars_digits {n : ℕ} : ∀ c ∈ natToChars n, isDigitCh c = true := by
  unfold natToChars
  split
  · intro c hc; rcases List.mem_singleton.mp hc with rfl; decide
  · exact natToCharsAux_digits (n + 1) n (by omega)

theorem charsToNat_natToChars (n : ℕ) : charsToNat (natToChars n) = n := by
  unfold natToChars charsToNat
  split
  · next h => subst h; decide
  · simpa using foldl_natToCharsAux (n + 1) n (by omega) 0

theorem natToChars_ne_nil (n : ℕ) : natToChars n ≠ [] := by
  unfold natToChars
  split
  · simp
  · exact natToCharsAux_ne_nil (by omega) (by assumption)

theorem natToChars_lt (n : ℕ) : n < 10 ^ (natToChars n).length := by
  unfold natToChars
  split
  · next h => subst h; simp
  · exact natToCharsAux_lt (n + 1) n (by omega)

theorem natToChars_ge {n : ℕ} (h0 : n ≠ 0) : 10 ^ ((natToChars n).length - 1) ≤ n := by
  unfold natToChars
  rw [if_neg h0]
  exact natToCharsAux_ge (n + 1) n (by omega) h0

theorem natToChars_length {n k : ℕ} (h1 : 10 ^ k ≤ n) (h2 : n < 10 ^ (k + 1)) :
    (natToChars n).length = k + 1 := by
  have hwk : 0 < 10 ^ k := pow_pos (by norm_num) k
  have h0 : n ≠ 0 := by omega
  have hlt : n < 10 ^ (natToChars n).length := natToChars_lt n
  have hge : 10 ^ ((natToChars n).length - 1) ≤ n := natToChars_ge h0
  have hL1 : 1 ≤ (natToChars n).length := by
    cases hL : natToChars n with
    | nil => exact absurd hL (natToChars_ne_nil n)
    | cons x xs => simp
  have hkL : k < (natToChars n).length := by
    by_contra hc
    push_neg at hc
    have := Nat.pow_le_pow_right (show 1 ≤ 10 by norm_num) hc
    omega
  have hLk : (natToChars n).length - 1 ≤ k := by
    by_contra hc
    push_neg at hc
    have : 10 ^ (k + 1) ≤ 10 ^ ((natToChars n).length - 1) :=
      Nat.pow_le_pow_right (by norm_num) (by omega)
    omega
  omega

/-! ### `parseFloat` on canonical digit strings -/

theorem jsExpFactor_nil : jsExpFactor [] = 1 := rfl

theorem jsParseFloatMag_digits {l : List Char} (hne : l ≠ [])
    (hall : ∀ c ∈ l, isDigitCh c = true) :
    jsParseFloatMag l = some (charsToNat l) := by
  simp only [jsParseFloatMag, takeWhile_all hall, List.drop_length, jsExpFactor]
  simp [List.isEmpty_iff, hne]

theorem jsParseFloatMag_frac {A B : List Char} (hA : A ≠ [])
    (hallA : ∀ c ∈ A, isDigitCh c = true) (hallB : ∀ c ∈ B, isDigitCh c = true) :
    jsParseFloatMag (A ++ '.' :: B) =
      some (charsToNat A + (charsToNat B : ℚ) / 10 ^ B.length) := by
  have htw : (A ++ '.' :: B).takeWhile isDigitCh = A := by
    rw [List.takeWhile_append, if_pos (by rw [takeWhile_all hallA])]
    simp [List.takeWhile_cons, show isDigitCh '.' = false from by decide]
  simp only [jsParseFloatMag, htw, List.drop_left]
  simp [takeWhile_all hallB, List.isEmpty_iff, hA, List.drop_length, jsExpFactor_nil]

theorem jsParseFloat_digits {l : List Char} (hne : l ≠ [])
    (hall : ∀ c ∈ l, isDigitCh c = true) :
    jsParseFloat l = some (charsToNat l) := by
  obtain ⟨c, rest, rfl⟩ : ∃ c rest, l = c :: rest := by
    cases l with
    | nil => exact absurd rfl hne
    | cons c rest => exact ⟨c, rest, rfl⟩
  have hc := hall c (by simp)
  unfold jsParseFloat
  rw [List.dropWhile_cons, if_neg (by simp [digit_not_ws hc])]
  simp only [if_neg (digit_ne_dash hc), if_neg (digit_ne_plus hc)]
  exact jsParseFloatMag_digits hne hall

theorem jsParseFloat_neg_digits {l : List Char} (hne : l ≠ [])
    (hall : ∀ c ∈ l, isDigitCh c = true) :
    jsParseFloat ('-' :: l) = some (-(charsToNat l : ℚ)) := by
  unfold jsParseFloat
  rw [List.dropWhile_cons, if_neg (by decide)]
  simp [jsParseFloatMag_digits hne hall]

theorem jsParseFloat_frac {A B : List Char} (hA : A ≠ [])
    (hallA : ∀ c ∈ A, isDigitCh c = true) (hallB : ∀ c ∈ B, isDigitCh c = true) :
    jsParseFloat (A ++ '.' :: B) =
      some (charsToNat A + (charsToNat B : ℚ) / 10 ^ B.length) := by
  obtain ⟨c, rest, hAc⟩ : ∃ c rest, A = c :: rest := by
    cases A with
    | nil => exact absurd rfl hA
    | cons c rest => exact ⟨c, rest, rfl⟩
  have hc := hallA c (by simp [hAc])
  unfold jsParseFloat
  rw [hAc, List.cons_append, List.dropWhile_cons, if_neg (by simp [digit_not_ws hc])]
  simp only [if_neg (digit_ne_dash hc), if_neg (digit_ne_plus hc)]
  rw [← List.cons_append, ← hAc]
  exact jsParseFloatMag_frac hA hallA hallB

theorem jsParseFloat_neg_frac {A B : List Char} (hA : A ≠ [])
    (hallA : ∀ c ∈ A, isDigitCh c = true) (hallB : ∀ c ∈ B, isDigitCh c = true) :
    jsParseFloat ('-' :: (A ++ '.' :: B)) =
      some (-(charsToNat A + (charsToNat B : ℚ) / 10 ^ B.length)) := by
  unfold jsParseFloat
  rw [List.dropWhile_cons, if_neg (by decide)]
  simp [jsParseFloatMag_frac hA hallA hallB]

/-! ### Splitting, replacing, padding -/

theorem splitChar_no_sep {sep : Char} :
    ∀ {l : List Char}, (∀ c ∈ l, c ≠ sep) → splitChar sep l = [l] := by
  intro l
  induction l with
  | nil => intro _; rfl
  | cons c rest ih =>
    intro h
    have hc : c ≠ sep := h c (by simp)
    simp only [splitChar, if_neg hc, ih (fun x hx => h x (by simp [hx]))]
    rfl

theorem splitChar_append {sep : Char} {A B : List Char} (hA : ∀ c ∈ A, c ≠ sep) :
    splitChar sep (A ++ sep :: B) = A :: splitChar sep B := by
  induction A with
  | nil => simp [splitChar]
  | cons a A ih =>
    have ha : a ≠ sep := hA a (by simp)
    rw [List.cons_append]
    simp only [splitChar, if_neg ha]
    rw [ih (fun x hx => hA x (by simp [hx]))]
    rfl

theorem replaceFirstChar_append {a b : Char} {A B : List Char} (h : a ∉ A) :
    replaceFirstChar a b (A ++ a :: B) = A ++ b :: B := by
  induction A with
  | nil => simp [replaceFirstChar]
  | cons x A ih =>
    have hx : x ≠ a := by rintro rfl; exact h (by simp)
    rw [List.cons_append]
    simp only [replaceFirstChar, if_neg hx]
    rw [ih (fun hmem => h (by simp [hmem]))]
    rw [List.cons_append]

theorem replaceFirstChar_not_mem {a b : Char} {l : List Char} (h : a ∉ l) :
    replaceFirstChar a b l = l := by
  induction l with
  | nil => rfl
  | cons x rest ih =>
    have hx : x ≠ a := by rintro rfl; exact h (by simp)
    simp only [replaceFirstChar, if_neg hx]
    rw [ih (fun hmem => h (by simp [hmem]))]

theorem padZeros_digits {p : ℕ} {l : List Char} (h : ∀ c ∈ l, isDigitCh c = true) :
    ∀ c ∈ padZeros p l, isDigitCh c = true := by
  intro c hc
  rcases List.mem_append.mp hc with h0 | h0
  · rcases List.eq_of_mem_replicate h0 with rfl
    decide
  · exact h c h0

/-! ### `Math.round` -/

theorem jsRound_nonneg {q : ℚ} (h : 0 ≤ q) : 0 ≤ jsRound q := by
  unfold jsRound
  exact Int.floor_nonneg.mpr (by linarith)

theorem abs_jsRound_sub (q : ℚ) : |(jsRound q : ℚ) - q| ≤ 1 / 2 := by
  have h1 := Int.floor_le (q + 1 / 2)
  have h2 := Int.lt_floor_add_one (q + 1 / 2)
  rw [abs_le]
  unfold jsRound
  constructor <;> linarith

theorem jsRound_intCast (m : ℤ) : jsRound (m : ℚ) = m := by
  unfold jsRound
  rw [Int.floor_int_add]
  norm_num

theorem jsRound_add_half_int (k : ℤ) : jsRound ((k : ℚ) + 1 / 2) = k + 1 := by
  unfold jsRound
  rw [show ((k : ℚ) + 1 / 2 + 1 / 2) = ((k + 1 : ℤ) : ℚ) by push_cast; ring]
  exact Int.floor_intCast _

/-! ### Claim C2: separator disambiguation boundary outputs -/

unseal Rat.add Rat.mul Rat.inv Rat.sub in
/-- **C2.** The plain-notation parser pins the boundary outputs:
`parseRupiah "1.500.000,50" = 1500000.5`, `parseRupiah "1,500,000.50" =
1500000.5`, `parseRupiah "1.500.000" = 1500000` (dot-only with more than
two dot-delimited groups is thousands grouping), and `parseRupiah "1,50"
= 1.5` (comma-only with a 1-2 digit tail is a decimal marker). -/
theorem parseRupiah_separator_boundary :
    parseRupiah "1.500.000,50" = some (3000001 / 2) ∧
    parseRupiah "1,500,000.50" = some (3000001 / 2) ∧
    parseRupiah "1.500.000" = some 1500000 ∧
    parseRupiah "1,50" = some (3 / 2) := by
  refine ⟨by decide, by decide, by decide, by decide⟩

/-! ### Claim C1: counterexample to the unrestricted rightmost-separator
rule -/

unseal Rat.add Rat.mul Rat.inv Rat.sub in
/-- **C1, counterexample.** With more than one occurrence of the
rightmost separator kind, `parseRupiah` does not implement the spec's
"rightmost occurrence is the decimal marker, all earlier occurrences are
removed" rule: on `"1.2,3,4"` the code yields 12.3 (it removes the dots
and then replaces the *first* comma), while the spec's canonicalization
yields 123.4; symmetrically for `"1,2.3.4"` (the code removes the commas
and keeps *every* dot). -/
theorem parseRupiah_rightmost_counterexample :
    parseRupiah "1.2,3,4" = some (123 / 10) ∧
    jsParseFloat (claimCanonical (numStrOf "1.2,3,4")) = some (617 / 5) ∧
    parseRupiah "1.2,3,4" ≠ jsParseFloat (claimCanonical (numStrOf "1.2,3,4")) ∧
    parseRupiah "1,2.3.4" = some (123 / 10) ∧
    jsParseFloat (claimCanonical (numStrOf "1,2.3.4")) = some (617 / 5) ∧
    parseRupiah "1,2.3.4" ≠ jsParseFloat (claimCanonical (numStrOf "1,2.3.4")) := by
  refine ⟨by decide, by decide, by decide, by decide, by decide, by decide⟩

/-! ### Claim C3: counterexample to the unrestricted compact round-trip -/

unseal Rat.add Rat.mul Rat.inv Rat.sub in
/-- **C3, counterexample.** The compact round-trip fails for fractional
amounts below the unit thresholds: `formatCompact 1.234 = "Rp 1.234"`,
which `parseRupiah` reads back as the thousands-grouped integer 1234 —
an error of more than 1232, far beyond half of any displayed increment. -/
theorem compact_roundtrip_counterexample :
    formatCompact (1234 / 1000) = "Rp 1.234" ∧
    parseRupiah (formatCompact (1234 / 1000)) = some 1234 ∧
    ¬(|(1234 : ℚ) - 1234 / 1000| ≤ compactHalfIncrement (1234 / 1000)) := by
  refine ⟨by decide, by decide, by decide⟩

/-! ### Claim C4: negative amounts in `toWords` -/

unseal Rat.add Rat.mul Rat.inv Rat.sub in
/-- **C4, counterexample.** `toWords` floors the absolute value, it does
not take the absolute value of the floor: at `-1.5` the code produces
"minus satu rupiah" (⌊|-1.5|⌋ = 1), not "minus dua rupiah"
(|⌊-1.5⌋| = 2) as the claim's `abs(floor(amount))` would demand. -/
theorem toWords_negative_counterexample :
    toWords (-(3 / 2)) ⟨false, true⟩ = "minus satu rupiah" ∧
    (⌊(-(3 / 2) : ℚ)⌋).natAbs = 2 ∧
    wordsCore 2 = "dua" ∧
    toWords (-(3 / 2)) ⟨false, true⟩ ≠
      "minus " ++ wordsCore (⌊(-(3 / 2) : ℚ)⌋).natAbs ++ " rupiah" := by
  refine ⟨by decide, by decide, by decide, by decide⟩

/-- **C4 (amended).** For every negative amount, `toWords` converts
`floor(abs(amount))` (the fractional part of the magnitude is discarded),
prefixes the result with "minus ", and appends the " rupiah" suffix, when
enabled, after everything else. -/
theorem toWords_negative_floor_abs (a : ℚ) (h : a < 0) :
    toWords a ⟨false, true⟩ = ("minus " ++ wordsCore (⌊|a|⌋).toNat) ++ " rupiah" ∧
    toWords a ⟨false, false⟩ = "minus " ++ wordsCore (⌊|a|⌋).toNat := by
  have h0 : ¬(a = 0) := ne_of_lt h
  constructor <;>
  · unfold toWords
    rw [if_neg h0]
    simp [h]

theorem toWords_negative_floor_abs_witness :
    toWords (-1500000 : ℚ) ⟨false, true⟩ =
      ("minus " ++ wordsCore (⌊|(-1500000 : ℚ)|⌋).toNat) ++ " rupiah" :=
  (toWords_negative_floor_abs (-1500000) (by norm_num)).1

/-! ### Claim C9: `roundToClean` -/

unseal Rat.add Rat.mul Rat.inv Rat.sub in
/-- **C9, counterexample.** `roundToClean` uses JavaScript `Math.round`,
which sends exact halves toward positive infinity, not away from zero:
`roundToClean (-1500) ribu = -1000`, whereas rounding half away from zero
would give -2000. -/
theorem roundToClean_negative_half_counterexample :
    roundToClean (-1500) RoundUnit.ribu = -1000 ∧
    roundToClean (-1500) RoundUnit.ribu ≠ -2000 := by
  refine ⟨by decide, by decide⟩

unseal Rat.add Rat.mul Rat.inv Rat.sub in
/-- **C9 (amended).** For every amount and unit, `roundToClean` returns
an integer multiple of the unit's divisor within half a divisor of the
amount (hence a nearest multiple), with exact halves rounded toward
positive infinity (so away from zero only for non-negative amounts); in
particular `roundToClean 1500 ribu = 2000` and
`roundToClean 0 ribu = 0`. -/
theorem roundToClean_nearest :
    (∀ (a : ℚ) (u : RoundUnit), ∃ k : ℤ,
      roundToClean a u = (k : ℚ) * roundUnitDivisor u ∧
      |roundToClean a u - a| ≤ roundUnitDivisor u / 2) ∧
    (∀ (a : ℚ) (u : RoundUnit) (k : ℤ), a = ((k : ℚ) + 1 / 2) * roundUnitDivisor u →
      roundToClean a u = ((k : ℚ) + 1) * roundUnitDivisor u) ∧
    roundToClean 1500 RoundUnit.ribu = 2000 ∧
    roundToClean 0 RoundUnit.ribu = 0 := by
  have hD : ∀ u : RoundUnit, (0 : ℚ) < roundUnitDivisor u := by
    intro u; cases u <;> norm_num [roundUnitDivisor]
  refine ⟨fun a u => ?_, fun a u k hk => ?_, by decide, by decide⟩
  · refine ⟨jsRound (a / roundUnitDivisor u), rfl, ?_⟩
    have habs := abs_jsRound_sub (a / roundUnitDivisor u)
    have hDu := hD u
    have hne : roundUnitDivisor u ≠ 0 := ne_of_gt hDu
    unfold roundToClean
    have : (jsRound (a / roundUnitDivisor u) : ℚ) * roundUnitDivisor u - a =
        ((jsRound (a / roundUnitDivisor u) : ℚ) - a / roundUnitDivisor u) *
          roundUnitDivisor u := by
      field_simp
    rw [this, abs_mul, abs_of_pos hDu]
    calc |(jsRound (a / roundUnitDivisor u) : ℚ) - a / roundUnitDivisor u| *
          roundUnitDivisor u ≤ 1 / 2 * roundUnitDivisor u := by
          exact mul_le_mul_of_nonneg_right habs (le_of_lt hDu)
      _ = roundUnitDivisor u / 2 := by ring
  · have hne : roundUnitDivisor u ≠ 0 := ne_of_gt (hD u)
    unfold roundToClean
    rw [hk, mul_div_cancel_right₀ _ hne, jsRound_add_half_int]
    push_cast
    ring

theorem roundToClean_nearest_witness :
    roundToClean 1500 RoundUnit.ribu = ((1 : ℤ) + 1 : ℚ) * roundUnitDivisor RoundUnit.ribu :=
  roundToClean_nearest.2.1 1500 RoundUnit.ribu 1 (by norm_num [roundUnitDivisor])

/-! ### Claim C10: amounts strictly between 0 and 1 -/

unseal Rat.add Rat.mul Rat.inv Rat.sub in
/-- **C10.** Only an amount exactly 0 produces the zero word "nol"; an
amount strictly between 0 and 1 floors to zero and produces no number
word at all: with the currency suffix the result is `" rupiah"` (leading
space, no "nol"), without it the empty string. -/
theorem toWords_subunit_no_words :
    (∀ a : ℚ, 0 < a → a < 1 →
      toWords a ⟨false, true⟩ = " rupiah" ∧ toWords a ⟨false, false⟩ = "") ∧
    toWords 0 ⟨false, true⟩ = "nol rupiah" ∧ toWords 0 ⟨false, false⟩ = "nol" := by
  refine ⟨fun a h0 h1 => ?_, by decide, by decide⟩
  have hne : ¬(a = 0) := ne_of_gt h0
  have hneg : ¬(a < 0) := by linarith
  have hfl : ⌊|a|⌋ = 0 := by
    rw [abs_of_pos h0]
    exact Int.floor_eq_zero_iff.mpr (by rw [Set.mem_Ico]; exact ⟨le_of_lt h0, h1⟩)
  constructor <;>
  · unfold toWords
    rw [if_neg hne]
    simp [hneg, hfl]
    decide

theorem toWords_subunit_no_words_witness :
    toWords (1 / 2 : ℚ) ⟨false, true⟩ = " rupiah" :=
  (toWords_subunit_no_words.1 (1 / 2) (by norm_num) (by norm_num)).1

/-! ### Claim C7: the parser is total and sentinel-valued -/

unseal Rat.add Rat.mul Rat.inv Rat.sub in
/-- **C7.** `parseRupiah` never throws — it is a total function into
`Option` — and every result is either a parsed number or the `null`
sentinel (`none`); failures yield the sentinel, never an exception and
never a silent zero: the empty string, pure-separator strings and
non-numeric text all map to `none`. -/
theorem parseRupiah_total_sentinel :
    (∀ s : String, parseRupiah s = none ∨ ∃ q : ℚ, parseRupiah s = some q) ∧
    parseRupiah "" = none ∧
    parseRupiah "invalid" = none ∧
    parseRupiah "..." = none ∧
    parseRupiah "rp" = none ∧
    parseRupiah "   " = none := by
  refine ⟨fun s => ?_, by decide, by decide, by decide, by decide, by decide⟩
  cases h : parseRupiah s with
  | none => exact Or.inl rfl
  | some q => exact Or.inr ⟨q, rfl⟩

/-! ### Claim C8: irregular terbilang forms -/

unseal Rat.add Rat.mul Rat.inv Rat.sub in
/-- **C8.** The irregular terbilang forms: `toWords 1000 = "seribu
rupiah"` (not "satu ribu rupiah"); a hundreds digit of exactly 1 renders
"seratus" (both alone and with a remainder); 11 renders "sebelas"; a
ribu-group count of exactly 1 renders "seribu", while triliun, miliar and
juta counts of 1 use the regular "satu unit" form. -/
theorem toWords_irregulars :
    toWords 1000 ⟨false, true⟩ = "seribu rupiah" ∧
    toWords 11 ⟨false, true⟩ = "sebelas rupiah" ∧
    convertGroup 100 = "seratus" ∧
    (∀ n : ℕ, 0 < n → n < 100 → convertGroup (100 + n) = "seratus " ++ convertTwoDigits n) ∧
    (∀ r : ℕ, 0 < r → r < 1000 → wordsCore (1000 + r) = "seribu " ++ convertGroup r) ∧
    wordsCore 1000 = "seribu" ∧
    toWords 1000000 ⟨false, true⟩ = "satu juta rupiah" ∧
    toWords 1000000000 ⟨false, true⟩ = "satu miliar rupiah" ∧
    toWords 1000000000000 ⟨false, true⟩ = "satu triliun rupiah" := by
  refine ⟨by decide, by decide, by decide, fun n h0 h1 => ?_, fun r h0 h1 => ?_,
    by decide, by decide, by decide, by decide⟩
  · have hne : ¬(100 + n = 0) := by omega
    have hh : (100 + n) / 100 = 1 := by omega
    have hr : (100 + n) % 100 = n := by omega
    unfold convertGroup
    rw [if_neg hne]
    simp only [hh, hr, if_pos h0]
    norm_num
    rw [if_neg (show ¬("seratus" = "") from by decide)]
    rw [show ("seratus" ++ " " : String) = "seratus " from by decide]
  · have h12 : (1000 + r) / 1000000000000 = 0 := by omega
    have h9m : (1000 + r) % 1000000000000 = 1000 + r := by omega
    have h9 : (1000 + r) / 1000000000 = 0 := by omega
    have h6m : (1000 + r) % 1000000000 = 1000 + r := by omega
    have h6 : (1000 + r) / 1000000 = 0 := by omega
    have h3m : (1000 + r) % 1000000 = 1000 + r := by omega
    have h3 : (1000 + r) / 1000 = 1 := by omega
    have h0m : (1000 + r) % 1000 = r := by omega
    unfold wordsCore
    simp only [h12, h9m, h9, h6m, h6, h3m, h3, h0m]
    norm_num [h0]
    rw [if_neg (show ¬("seribu" = "") from by decide)]
    rw [show ("seribu" ++ " " : String) = "seribu " from by decide]

theorem toWords_irregulars_witness :
    convertGroup (100 + 11) = "seratus " ++ convertTwoDigits 11 :=
  toWords_irregulars.2.2.2.1 11 (by norm_num) (by norm_num)

/-! ### Claim C6: counterexample to the unrestricted grammar invariant -/

unseal Rat.add Rat.mul Rat.inv Rat.sub in
/-- **C6, counterexample.** Not every integer multiple of a unit is
rendered as `"<int> <unit>"`: 50000 is 50·ribu, but it lies below the
100000 threshold of the ribu branch, so `formatCompact` renders it as the
grouped string "Rp 50.000", not "Rp 50 ribu". -/
theorem formatCompact_grammar_counterexample :
    formatCompact (50 * 1000) = "Rp 50.000" ∧
    formatCompact (50 * 1000) ≠ "Rp 50 ribu" := by
  refine ⟨by decide, by decide⟩

/-! ### Claim C5: decimal rounding before grouping -/

theorem natToChars_no_dot {n : ℕ} : ∀ c ∈ natToChars n, c ≠ '.' :=
  fun c hc => digit_ne_dot (natToChars_digits c hc)

theorem padZeros_no_dot {p : ℕ} {l : List Char}
    (h : ∀ c ∈ l, isDigitCh c = true) : ∀ c ∈ padZeros p l, c ≠ '.' :=
  fun c hc => digit_ne_dot (padZeros_digits h c hc)

/-- `toFixed` of an exact `p`-decimal value renders its integer digits, a
dot, and the zero-padded fractional digits. -/
theorem jsToFixed_div_pow {m p : ℕ} (hp : 0 < p) :
    jsToFixed ((m : ℚ) / 10 ^ p) p =
      natToChars (m / 10 ^ p) ++ '.' :: padZeros p (natToChars (m % 10 ^ p)) := by
  have h10 : ((10 : ℚ) ^ p) ≠ 0 := by positivity
  have hn : ⌊(m : ℚ) / 10 ^ p * 10 ^ p + 1 / 2⌋ = (m : ℤ) := by
    rw [div_mul_cancel₀ _ h10,
      show ((m : ℚ) + 1 / 2) = ((m : ℤ) : ℚ) + 1 / 2 by push_cast; ring,
      Int.floor_int_add]
    norm_num
  unfold jsToFixed
  simp only [hn]
  rw [if_neg (by omega : ¬((m : ℤ) < 0)), if_neg hp.ne']
  simp [Int.natAbs_ofNat]

unseal Rat.add Rat.mul Rat.inv Rat.sub in
/-- **C5.** With decimal display enabled and precision `p > 0`,
`formatRupiah` first rounds `|amount| * 10^p` to the nearest integer
(halves away from zero, which on the absolute value is `Math.round`'s
half-up) and only then groups digits, so the displayed fractional digits
are exactly the `p` digits of that rounded integer; in particular
1500000.556 at the default precision 2 renders as "Rp 1.500.000,56",
not a truncated ",55". -/
theorem formatRupiah_decimal_rounding :
    (∀ (a : ℚ) (p : ℕ), 0 < p →
      formatRupiah a ⟨true, true, '.', ',', true, some p⟩ =
        String.mk ("Rp ".data ++
          ((if a < 0 then ['-'] else []) ++
            (group3 '.' (natToChars ((jsRound (|a| * 10 ^ p)).toNat / 10 ^ p)) ++
              ',' :: padZeros p (natToChars ((jsRound (|a| * 10 ^ p)).toNat % 10 ^ p)))))) ∧
    formatRupiah (1500000556 / 1000) ⟨true, true, '.', ',', true, none⟩ = "Rp 1.500.000,56" := by
  constructor
  · intro a p hp
    have hm0 : 0 ≤ jsRound (|a| * 10 ^ p) := jsRound_nonneg (by positivity)
    have hcast : ((jsRound (|a| * 10 ^ p) : ℤ) : ℚ) =
        ((jsRound (|a| * 10 ^ p)).toNat : ℚ) := by
      exact_mod_cast (Int.toNat_of_nonneg hm0).symm
    have hsplit : splitChar '.'
        (jsToFixed (((jsRound (|a| * 10 ^ p)).toNat : ℚ) / 10 ^ p) p) =
        [natToChars ((jsRound (|a| * 10 ^ p)).toNat / 10 ^ p),
         padZeros p (natToChars ((jsRound (|a| * 10 ^ p)).toNat % 10 ^ p))] := by
      rw [jsToFixed_div_pow hp, splitChar_append natToChars_no_dot,
        splitChar_no_sep (padZeros_no_dot (fun c hc => natToChars_digits c hc))]
    unfold formatRupiah
    simp only [Option.getD_some, if_pos hp, if_pos rfl]
    rw [hcast] at *
    rw [hsplit]
    simp only [List.headD_cons, List.getD_cons_succ, List.getD_cons_zero]
    cases hlt : decide (a < 0) with
    | false =>
      have : ¬(a < 0) := of_decide_eq_false hlt
      simp [this]
    | true =>
      have : a < 0 := of_decide_eq_true hlt
      simp [this]
  · decide

theorem formatRupiah_decimal_rounding_witness :
    formatRupiah (1500000556 / 1000 : ℚ) ⟨true, true, '.', ',', true, some 2⟩ =
      String.mk ("Rp ".data ++
        ((if (1500000556 / 1000 : ℚ) < 0 then ['-'] else []) ++
          (group3 '.'
              (natToChars ((jsRound (|(1500000556 / 1000 : ℚ)| * 10 ^ 2)).toNat / 10 ^ 2)) ++
            ',' :: padZeros 2
              (natToChars ((jsRound (|(1500000556 / 1000 : ℚ)| * 10 ^ 2)).toNat % 10 ^ 2))))) :=
  formatRupiah_decimal_rounding.1 (1500000556 / 1000) 2 (by norm_num)

/-! ### Claim C6: the grammar invariant inside the unit branches -/

theorem jsToFixed_intCast_zero {k : ℤ} (hk : 0 ≤ k) :
    jsToFixed (k : ℚ) 0 = natToChars k.toNat := by
  unfold jsToFixed
  have hfl : ⌊(k : ℚ) * 10 ^ 0 + 1 / 2⌋ = k := by
    rw [pow_zero, mul_one, show ((k : ℚ) + 1 / 2) = ((k : ℤ) : ℚ) + 1 / 2 from rfl,
      Int.floor_int_add]
    norm_num
  have habs : k.natAbs = k.toNat := by omega
  simp only [hfl, if_neg (not_lt.mpr hk), if_pos rfl, habs]
  simp

/-- In a unit branch whose one-decimal rounding lands on an integer,
`formatCompactValue` renders that integer with no decimal marker. -/
theorem formatCompactValue_int {v : ℚ} (hv : 0 ≤ v)
    (hmod : jsRound (v * 10) % 10 = 0) (u : List Char) :
    formatCompactValue v u = natToChars ((jsRound (v * 10)).toNat / 10) ++ ' ' :: u := by
  have hn0 : 0 ≤ jsRound (v * 10) := jsRound_nonneg (by positivity)
  obtain ⟨k, hk⟩ : ∃ k : ℤ, jsRound (v * 10) = 10 * k := ⟨jsRound (v * 10) / 10, by omega⟩
  have hk0 : 0 ≤ k := by omega
  have hr : ((jsRound (v * 10) : ℤ) : ℚ) / 10 = (k : ℚ) := by rw [hk]; push_cast; ring
  have htn : k.toNat = (jsRound (v * 10)).toNat / 10 := by omega
  unfold formatCompactValue
  rw [hr, if_pos (Rat.den_intCast k), jsToFixed_intCast_zero hk0, htn]

unseal Rat.add Rat.mul Rat.inv Rat.sub in
/-- **C6 (amended).** Inside each unit's selection range, an amount whose
value divided by the unit's divisor rounds (at one decimal place) to an
integer is rendered as `"Rp <int> <unit>"`, with no decimal marker; in
particular the integer multiples 3·10¹² triliun, 2·10⁹ miliar, 10⁶ juta
and 500·10³ ribu render as "Rp 3 triliun", "Rp 2 miliar", "Rp 1 juta" and
"Rp 500 ribu". -/
theorem formatCompact_grammar_invariant :
    (∀ a : ℚ, 1000000000000 ≤ |a| →
      jsRound (|a| / 1000000000000 * 10) % 10 = 0 →
      formatCompact a = String.mk ("Rp ".data ++ ((if a < 0 then ['-'] else []) ++
        (natToChars ((jsRound (|a| / 1000000000000 * 10)).toNat / 10) ++
          ' ' :: "triliun".data)))) ∧
    (∀ a : ℚ, 1000000000 ≤ |a| → |a| < 1000000000000 →
      jsRound (|a| / 1000000000 * 10) % 10 = 0 →
      formatCompact a = String.mk ("Rp ".data ++ ((if a < 0 then ['-'] else []) ++
        (natToChars ((jsRound (|a| / 1000000000 * 10)).toNat / 10) ++
          ' ' :: "miliar".data)))) ∧
    (∀ a : ℚ, 1000000 ≤ |a| → |a| < 1000000000 →
      jsRound (|a| / 1000000 * 10) % 10 = 0 →
      formatCompact a = String.mk ("Rp ".data ++ ((if a < 0 then ['-'] else []) ++
        (natToChars ((jsRound (|a| / 1000000 * 10)).toNat / 10) ++
          ' ' :: "juta".data)))) ∧
    (∀ a : ℚ, 100000 ≤ |a| → |a| < 1000000 →
      jsRound (|a| / 1000 * 10) % 10 = 0 →
      formatCompact a = String.mk ("Rp ".data ++ ((if a < 0 then ['-'] else []) ++
        (natToChars ((jsRound (|a| / 1000 * 10)).toNat / 10) ++
          ' ' :: "ribu".data)))) ∧
    formatCompact (3 * 1000000000000) = "Rp 3 triliun" ∧
    formatCompact (2 * 1000000000) = "Rp 2 miliar" ∧
    formatCompact 1000000 = "Rp 1 juta" ∧
    formatCompact (500 * 1000) = "Rp 500 ribu" := by
  refine ⟨fun a h1 hmod => ?_, fun a h1 h2 hmod => ?_, fun a h1 h2 hmod => ?_,
    fun a h1 h2 hmod => ?_, by decide, by decide, by decide, by decide⟩
  · simp only [formatCompact, h1, if_true]
    rw [formatCompactValue_int (by positivity) hmod]
    by_cases hneg : a < 0
    · simp [hneg]
    · simp [hneg]
  · have hn1 : ¬((1000000000000 : ℚ) ≤ |a|) := by linarith
    simp only [formatCompact, hn1, h1, if_true, if_false]
    rw [formatCompactValue_int (by positivity) hmod]
    by_cases hneg : a < 0
    · simp [hneg]
    · simp [hneg]
  · have hn1 : ¬((1000000000000 : ℚ) ≤ |a|) := by linarith
    have hn2 : ¬((1000000000 : ℚ) ≤ |a|) := by linarith
    simp only [formatCompact, hn1, hn2, h1, if_true, if_false]
    rw [formatCompactValue_int (by positivity) hmod]
    by_cases hneg : a < 0
    · simp [hneg]
    · simp [hneg]
  · have hn1 : ¬((1000000000000 : ℚ) ≤ |a|) := by linarith
    have hn2 : ¬((1000000000 : ℚ) ≤ |a|) := by linarith
    have hn3 : ¬((1000000 : ℚ) ≤ |a|) := by linarith
    simp only [formatCompact, hn1, hn2, hn3, h1, if_true, if_false]
    rw [formatCompactValue_int (by positivity) hmod]
    by_cases hneg : a < 0
    · simp [hneg]
    · simp [hneg]

unseal Rat.add Rat.mul Rat.inv Rat.sub in
theorem formatCompact_grammar_invariant_witness :
    formatCompact (7000000000 : ℚ) = String.mk ("Rp ".data ++
      ((if (7000000000 : ℚ) < 0 then ['-'] else []) ++
        (natToChars ((jsRound (|(7000000000 : ℚ)| / 1000000000 * 10)).toNat / 10) ++
          ' ' :: "miliar".data))) :=
  formatCompact_grammar_invariant.2.1 7000000000 (by norm_num) (by norm_num)
    (by decide)

/-! ### Claim C1: infrastructure -/

theorem mem_dropWhile_of_neg {p : Char → Bool} {l : List Char} {c : Char}
    (hc : c ∈ l) (hp : p c = false) : c ∈ l.dropWhile p := by
  induction l with
  | nil => simp at hc
  | cons x rest ih =>
    rw [List.dropWhile_cons]
    cases hpx : p x with
    | true =>
      rw [if_pos rfl]
      rcases List.mem_cons.mp hc with rfl | hmem
      · rw [hp] at hpx; exact absurd hpx (by simp)
      · exact ih hmem
    | false => simpa using hc

theorem mem_jsTrim {l : List Char} {c : Char} (hc : c ∈ l) (hws : isWs c = false) :
    c ∈ jsTrim l := by
  unfold jsTrim
  rw [List.mem_reverse]
  exact mem_dropWhile_of_neg (by rw [List.mem_reverse]; exact mem_dropWhile_of_neg hc hws) hws

theorem mem_jsToLower {l : List Char} {c : Char} (hc : c ∈ l)
    (hlow : Char.toLower c = c) : c ∈ jsToLower l :=
  List.mem_map.mpr ⟨c, hc, hlow⟩

theorem mem_removeRp {l : List Char} {c : Char} (hc : c ∈ l)
    (hr : c ≠ 'r') (hp : c ≠ 'p') : c ∈ removeRp l := by
  induction l using removeRp.induct with
  | case1 => simp at hc
  | case2 c' => simpa [removeRp] using hc
  | case3 c1 c2 rest hcond ih =>
    rw [removeRp, if_pos hcond]
    simp only [Bool.and_eq_true, decide_eq_true_eq] at hcond
    rcases List.mem_cons.mp hc with rfl | hmem
    · exact absurd hcond.1 hr
    · rcases List.mem_cons.mp hmem with rfl | hmem'
      · exact absurd hcond.2 hp
      · exact ih hmem'
  | case4 c1 c2 rest hcond ih =>
    rw [removeRp, if_neg hcond]
    rcases List.mem_cons.mp hc with rfl | hmem
    · simp
    · simp only [List.mem_cons]
      exact Or.inr (ih hmem)

/-- The character of the input is still present in the parser's cleaned
working string, provided it is not whitespace, is fixed by lowercasing and
is not one of the letters of the stripped `"rp"` prefix. -/
theorem mem_numStrOf {s : String} {c : Char} (hc : c ∈ s.data)
    (hws : isWs c = false) (hlow : Char.toLower c = c)
    (hr : c ≠ 'r') (hp : c ≠ 'p') : c ∈ numStrOf s :=
  mem_jsTrim (mem_removeRp (mem_jsToLower (mem_jsTrim hc hws) hlow) hr hp) hws

theorem find?_split {p : Char → Bool} :
    ∀ {l : List Char} {c : Char}, l.find? p = some c →
      ∃ l₁ l₂, l = l₁ ++ c :: l₂ ∧ ∀ x ∈ l₁, p x = false := by
  intro l
  induction l with
  | nil => intro c h; simp at h
  | cons x rest ih =>
    intro c h
    rw [List.find?_cons] at h
    cases hpx : p x with
    | true =>
      rw [hpx] at h
      rcases Option.some_inj.mp h with rfl
      exact ⟨[], rest, rfl, by simp⟩
    | false =>
      rw [hpx] at h
      obtain ⟨l₁, l₂, rfl, hl₁⟩ := ih h
      refine ⟨x :: l₁, l₂, rfl, ?_⟩
      intro y hy
      rcases List.mem_cons.mp hy with rfl | hy'
      · exact hpx
      · exact hl₁ y hy'

theorem lastIndexOfChar_not_mem {c : Char} {l : List Char} (h : c ∉ l) :
    lastIndexOfChar c l = -1 := by
  induction l with
  | nil => rfl
  | cons x rest ih =>
    have hx : ¬(x = c) := by rintro rfl; exact h (by simp)
    have hr : c ∉ rest := fun hmem => h (by simp [hmem])
    simp only [lastIndexOfChar, ih hr]
    norm_num [hx]

theorem lastIndexOfChar_lt_length (c : Char) (l : List Char) :
    lastIndexOfChar c l < (l.length : ℤ) := by
  induction l with
  | nil => simp [lastIndexOfChar]
  | cons x rest ih =>
    simp only [lastIndexOfChar, List.length_cons]
    by_cases h0 : (0 : ℤ) ≤ lastIndexOfChar c rest
    · rw [if_pos h0]; push_cast; omega
    · rw [if_neg h0]
      by_cases hx : x = c
      · rw [if_pos hx]; omega
      · rw [if_neg hx]; omega

theorem lastIndexOfChar_append_not_mem {c : Char} {l₁ l₂ : List Char} (h : c ∉ l₂) :
    lastIndexOfChar c (l₁ ++ l₂) = lastIndexOfChar c l₁ := by
  induction l₁ with
  | nil => simpa using lastIndexOfChar_not_mem h
  | cons x rest ih =>
    rw [List.cons_append]
    simp only [lastIndexOfChar, ih]

theorem lastIndexOfChar_append_cons {c : Char} {l₁ l₂ : List Char} (h : c ∉ l₂) :
    lastIndexOfChar c (l₁ ++ c :: l₂) = (l₁.length : ℤ) := by
  induction l₁ with
  | nil =>
    simp only [List.nil_append, lastIndexOfChar, lastIndexOfChar_not_mem h]
    norm_num
  | cons x rest ih =>
    rw [List.cons_append]
    simp only [lastIndexOfChar, ih, List.length_cons]
    rw [if_pos (by positivity)]
    push_cast
    ring

theorem canonRev_no_sep_append {l₁ rest : List Char}
    (h : ∀ x ∈ l₁, isSepCh x = false) :
    canonRev (l₁ ++ rest) = l₁ ++ canonRev rest := by
  induction l₁ with
  | nil => rfl
  | cons x l₁ ih =>
    rw [List.cons_append]
    have hx : ¬(isSepCh x = true) := by simp [h x (by simp)]
    simp only [canonRev, if_neg hx]
    rw [ih (fun y hy => h y (by simp [hy])), List.cons_append]

theorem tryCompact_none {units : List (List Char × ℚ)} {cl : List Char}
    (h : ∀ u ∈ units, containsSub u.1 cl = false) :
    tryCompact units cl = none := by
  induction units with
  | nil => rfl
  | cons u rest ih =>
    obtain ⟨u1, m⟩ := u
    rw [tryCompact, if_neg (by simp [h ⟨u1, m⟩ (by simp)])]
    exact ih (fun v hv => h v (by simp [hv]))

/-- Core of claim C1: when the rightmost separator kind occurs exactly
once, the disambiguation branch of the parser computes exactly the spec's
canonicalization (rightmost separator becomes the decimal dot, every
other separator is dropped). -/
theorem parsePlain_lastSep {numStr : List Char}
    (hdot : '.' ∈ numStr) (hcomma : ',' ∈ numStr)
    (huniq : rightmostSepKindUnique numStr = true) :
    parsePlain numStr = jsParseFloat (claimCanonical numStr) := by
  unfold rightmostSepKindUnique at huniq
  cases hfind : numStr.reverse.find? isSepCh with
  | none => rw [hfind] at huniq; simp at huniq
  | some c =>
  rw [hfind] at huniq
  have hcount : numStr.count c = 1 := by simpa using huniq
  have hsep : isSepCh c = true := List.find?_some hfind
  obtain ⟨r₁, r₂, hrev, hr₁⟩ := find?_split hfind
  have hl : numStr = r₂.reverse ++ c :: r₁.reverse := by
    have h2 := congrArg List.reverse hrev
    rw [List.reverse_reverse] at h2
    rw [h2]
    simp
  have hBsep : ∀ x ∈ r₁.reverse, isSepCh x = false := fun x hx =>
    hr₁ x (List.mem_reverse.mp hx)
  have hsplitcount : numStr.count c = r₂.reverse.count c + (r₁.reverse.count c + 1) := by
    rw [hl]
    simp [List.count_append, List.count_cons]
  have hcA : c ∉ r₂.reverse := List.count_eq_zero.mp (by omega)
  have hcB : c ∉ r₁.reverse := List.count_eq_zero.mp (by omega)
  have hany1 : numStr.any (fun x => x = '.') = true :=
    List.any_eq_true.mpr ⟨'.', hdot, by simp⟩
  have hany2 : numStr.any (fun x => x = ',') = true :=
    List.any_eq_true.mpr ⟨',', hcomma, by simp⟩
  have hcases : c = '.' ∨ c = ',' := by simpa [isSepCh] using hsep
  rcases hcases with rfl | rfl
  · -- the rightmost separator is the (unique) dot: the code keeps it and
    -- strips every comma
    have hdotB : '.' ∉ r₁.reverse := fun hx => by simpa [isSepCh] using hBsep '.' hx
    have hcommaB : ',' ∉ r₁.reverse := fun hx => by simpa [isSepCh] using hBsep ',' hx
    have hld : lastIndexOfChar '.' numStr = (r₂.reverse.length : ℤ) := by
      rw [hl]; exact lastIndexOfChar_append_cons hdotB
    have hlc : lastIndexOfChar ',' numStr = lastIndexOfChar ',' r₂.reverse := by
      rw [hl]
      refine lastIndexOfChar_append_not_mem ?_
      intro hmem
      rcases List.mem_cons.mp hmem with h' | h'
      · exact absurd h' (by decide)
      · exact absurd h' hcommaB
    have hcmp : ¬(lastIndexOfChar ',' numStr > lastIndexOfChar '.' numStr) := by
      rw [hld, hlc]
      have := lastIndexOfChar_lt_length ',' r₂.reverse
      omega
    unfold parsePlain
    simp only [hany1, hany2, Bool.and_self, if_true, if_neg hcmp]
    congr 1
    have hfB : r₁.reverse.filter (fun x => x ≠ ',') = r₁.reverse :=
      List.filter_eq_self.mpr (fun x hx => by
        simp only [decide_eq_true_eq]
        rintro rfl
        exact hcommaB hx)
    calc numStr.filter (fun x => x ≠ ',')
        = r₂.reverse.filter (fun x => x ≠ ',') ++ '.' :: r₁.reverse := by
          rw [hl, List.filter_append]
          congr 1
          refine List.filter_eq_self.mpr ?_
          intro x hx
          rcases List.mem_cons.mp hx with rfl | hx'
          · decide
          · simp only [decide_eq_true_eq]
            rintro rfl
            exact hcommaB hx'
      _ = stripSeps r₂.reverse ++ '.' :: r₁.reverse := by
          congr 1
          refine List.filter_congr ?_
          intro x hx
          have hxd : x ≠ '.' := by rintro rfl; exact hcA hx
          by_cases hxc : x = ','
          · subst hxc; simp [stripSeps, isSepCh]
          · simp [stripSeps, isSepCh, hxc, hxd]
      _ = claimCanonical numStr := by
          rw [claimCanonical, hrev, canonRev_no_sep_append hr₁]
          simp only [canonRev, if_pos (by decide : isSepCh '.' = true)]
          rw [List.reverse_append]
          simp only [List.reverse_cons]
          simp only [stripSeps]
          rw [← List.filter_reverse]
          simp
  · -- the rightmost separator is the (unique) comma: the code strips the
    -- dots and turns the comma into the decimal dot
    have hdotB : '.' ∉ r₁.reverse := fun hx => by simpa [isSepCh] using hBsep '.' hx
    have hcommaB : ',' ∉ r₁.reverse := fun hx => by simpa [isSepCh] using hBsep ',' hx
    have hlc : lastIndexOfChar ',' numStr = (r₂.reverse.length : ℤ) := by
      rw [hl]; exact lastIndexOfChar_append_cons hcommaB
    have hld : lastIndexOfChar '.' numStr = lastIndexOfChar '.' r₂.reverse := by
      rw [hl]
      refine lastIndexOfChar_append_not_mem ?_
      intro hmem
      rcases List.mem_cons.mp hmem with h' | h'
      · exact absurd h' (by decide)
      · exact absurd h' hdotB
    have hcmp : lastIndexOfChar ',' numStr > lastIndexOfChar '.' numStr := by
      rw [hld, hlc]
      have := lastIndexOfChar_lt_length '.' r₂.reverse
      omega
    unfold parsePlain
    simp only [hany1, hany2, Bool.and_self, if_true, if_pos hcmp]
    congr 1
    have hfB : r₁.reverse.filter (fun x => x ≠ '.') = r₁.reverse :=
      List.filter_eq_self.mpr (fun x hx => by
        simp only [decide_eq_true_eq]
        rintro rfl
        exact hdotB hx)
    have hnotAf : ',' ∉ r₂.reverse.filter (fun x => x ≠ '.') := fun hmem =>
      hcA (List.mem_filter.mp hmem).1
    calc replaceFirstChar ',' '.' (numStr.filter (fun x => x ≠ '.'))
        = replaceFirstChar ',' '.'
            (r₂.reverse.filter (fun x => x ≠ '.') ++ ',' :: r₁.reverse) := by
          rw [hl, List.filter_append]
          have hfc : (',' :: r₁.reverse).filter (fun x => x ≠ '.') = ',' :: r₁.reverse := by
            refine List.filter_eq_self.mpr ?_
            intro x hx
            rcases List.mem_cons.mp hx with rfl | hx'
            · decide
            · simp only [decide_eq_true_eq]
              rintro rfl
              exact hdotB hx'
          rw [hfc]
      _ = r₂.reverse.filter (fun x => x ≠ '.') ++ '.' :: r₁.reverse :=
          replaceFirstChar_append hnotAf
      _ = stripSeps r₂.reverse ++ '.' :: r₁.reverse := by
          congr 1
          refine List.filter_congr ?_
          intro x hx
          have hxc : x ≠ ',' := by rintro rfl; exact hcA hx
          by_cases hxd : x = '.'
          · subst hxd; simp [stripSeps, isSepCh]
          · simp [stripSeps, isSepCh, hxc, hxd]
      _ = claimCanonical numStr := by
          rw [claimCanonical, hrev, canonRev_no_sep_append hr₁]
          simp only [canonRev, if_pos (by decide : isSepCh ',' = true)]
          rw [List.reverse_append]
          simp only [List.reverse_cons]
          simp only [stripSeps]
          rw [← List.filter_reverse]
          simp

unseal Rat.add Rat.mul Rat.inv Rat.sub in
/-- **C1 (amended).** For every input string containing at least one `.`
and at least one `,`, no compact unit keyword, and in which the separator
kind appearing rightmost occurs exactly once, `parseRupiah` treats that
rightmost occurrence as the decimal marker and removes every earlier
occurrence of either character before parsing the canonical string; in
particular both "1.500.000,50" and "1,500,000.50" parse to 1500000.5. -/
theorem parseRupiah_lastSep_decimal :
    (∀ s : String, '.' ∈ s.data → ',' ∈ s.data →
      (∀ u ∈ compactUnits, containsSub u.1 (cleanedOf s) = false) →
      rightmostSepKindUnique (numStrOf s) = true →
      parseRupiah s = jsParseFloat (claimCanonical (numStrOf s))) ∧
    parseRupiah "1.500.000,50" = some (3000001 / 2) ∧
    parseRupiah "1,500,000.50" = some (3000001 / 2) := by
  refine ⟨fun s hdot hcomma hnounit huniq => ?_, by decide, by decide⟩
  have hne : ¬(s.data.isEmpty = true) := by
    cases hd : s.data with
    | nil => rw [hd] at hdot; simp at hdot
    | cons x xs => simp [hd]
  unfold parseRupiah
  rw [if_neg hne, tryCompact_none hnounit]
  exact parsePlain_lastSep
    (mem_numStrOf hdot (by decide) (by decide) (by decide) (by decide))
    (mem_numStrOf hcomma (by decide) (by decide) (by decide) (by decide)) huniq

theorem parseRupiah_lastSep_decimal_witness :
    parseRupiah "1.500.000,50" = jsParseFloat (claimCanonical (numStrOf "1.500.000,50")) :=
  parseRupiah_lastSep_decimal.1 "1.500.000,50" (by decide) (by decide) (by decide)
    (by decide)

/-! ### Claim C3: infrastructure on the formatted output -/

theorem takeWhile_digits_append {A : List Char} {c : Char} {tail : List Char}
    (hall : ∀ x ∈ A, isDigitCh x = true) (hc : isDigitCh c = false) :
    (A ++ c :: tail).takeWhile isDigitCh = A := by
  rw [List.takeWhile_append, if_pos (by rw [takeWhile_all hall])]
  simp [List.takeWhile_cons, hc]

theorem dropWhile_eq_self_of_head {p : Char → Bool} {l : List Char}
    (h : ∀ c, l.head? = some c → p c = false) : l.dropWhile p = l := by
  cases l with
  | nil => rfl
  | cons x rest => rw [List.dropWhile_cons, if_neg (by simp [h x rfl])]

theorem jsTrim_eq_self {l : List Char}
    (hhead : ∀ c, l.head? = some c → isWs c = false)
    (hlast : ∀ c, l.getLast? = some c → isWs c = false) : jsTrim l = l := by
  unfold jsTrim
  rw [dropWhile_eq_self_of_head hhead, dropWhile_eq_self_of_head (by
    intro c hc
    rw [List.head?_reverse] at hc
    exact hlast c hc), List.reverse_reverse]

theorem toLower_of_digit {c : Char} (h : isDigitCh c = true) : Char.toLower c = c := by
  rcases isDigitCh_toNat h with ⟨h1, h2⟩
  rw [Char.toLower, if_neg (by omega)]

theorem jsToLower_fixed {l : List Char} (h : ∀ c ∈ l, Char.toLower c = c) :
    jsToLower l = l := by
  unfold jsToLower
  induction l with
  | nil => rfl
  | cons x rest ih =>
    rw [List.map_cons, h x (by simp), ih (fun c hc => h c (by simp [hc]))]

theorem natToChars_single {d : ℕ} (h1 : 0 < d) (h2 : d < 10) :
    natToChars d = [Nat.digitChar d] := by
  unfold natToChars
  rw [if_neg (by omega), natToCharsAux_step (by omega),
    Nat.div_eq_of_lt h2, natToCharsAux_zero, Nat.mod_eq_of_lt h2, List.nil_append]

theorem jsToString_natCast (n : ℕ) : jsToString (n : ℚ) = natToChars n := by
  unfold jsToString
  have hden : ((n : ℚ)).den = 1 := Rat.den_natCast n
  have hnum : ((n : ℚ)).num = (n : ℤ) := Rat.num_natCast n
  rw [hden, hnum, show decExp 1 = 0 from by decide,
    if_neg (not_lt.mpr (by positivity : (0 : ℚ) ≤ (n : ℚ))), if_pos rfl]
  simp

theorem mem_of_listStartsWith :
    ∀ {needle hay : List Char}, listStartsWith needle hay = true →
      ∀ x ∈ needle, x ∈ hay := by
  intro needle
  induction needle with
  | nil => intro hay _ x hx; simp at hx
  | cons a as ih =>
    intro hay h x hx
    cases hay with
    | nil => simp [listStartsWith] at h
    | cons b bs =>
      simp only [listStartsWith, Bool.and_eq_true, decide_eq_true_eq] at h
      rcases List.mem_cons.mp hx with rfl | hx'
      · simp [h.1]
      · exact List.mem_cons.mpr (Or.inr (ih h.2 x hx'))

theorem containsSub_false_of_missing {needle : List Char} {ch : Char}
    (hch : ch ∈ needle) :
    ∀ {hay : List Char}, ch ∉ hay → containsSub needle hay = false := by
  intro hay
  induction hay with
  | nil =>
    intro _
    cases hne : needle with
    | nil => rw [hne] at hch; simp at hch
    | cons a as => simp [containsSub, listStartsWith]
  | cons c rest ih =>
    intro hmiss
    rw [containsSub]
    have h1 : listStartsWith needle (c :: rest) = false := by
      cases hs : listStartsWith needle (c :: rest) with
      | false => rfl
      | true => exact absurd (mem_of_listStartsWith hs ch hch) hmiss
    rw [h1, Bool.false_or]
    exact ih (fun hmem => hmiss (by simp [hmem]))

theorem listStartsWith_append (u post : List Char) :
    listStartsWith u (u ++ post) = true := by
  induction u with
  | nil => rfl
  | cons a as ih => simpa [listStartsWith] using ih

theorem listStartsWith_refl (u : List Char) : listStartsWith u u = true := by
  induction u with
  | nil => rfl
  | cons a as ih => simpa [listStartsWith] using ih

theorem containsSub_append (pre u : List Char) : containsSub u (pre ++ u) = true := by
  induction pre with
  | nil =>
    cases u with
    | nil => rfl
    | cons a as =>
      rw [List.nil_append, containsSub, listStartsWith_refl]
      rfl
  | cons c rest ih =>
    rw [List.cons_append, containsSub, ih]
    simp

theorem removeRp_no_r {l : List Char} (h : 'r' ∉ l) : removeRp l = l := by
  induction l using removeRp.induct with
  | case1 => rfl
  | case2 c => rfl
  | case3 c1 c2 rest hcond ih =>
    simp only [Bool.and_eq_true, decide_eq_true_eq] at hcond
    exact absurd (hcond.1 ▸ List.mem_cons_self c1 (c2 :: rest)) h
  | case4 c1 c2 rest hcond ih =>
    rw [removeRp, if_neg hcond, ih (fun hm => h (by simp [hm]))]

theorem firstNumToken_skip {c : Char} {rest : List Char}
    (h1 : isDigitCh c = false) (h2 : c ≠ '-') :
    firstNumToken (c :: rest) = firstNumToken rest := by
  rw [firstNumToken, if_neg (by simp [h1]), if_neg (by simp [h2])]

theorem firstNumToken_from_digit {a : Char} {rest : List Char}
    (ha : isDigitCh a = true) :
    firstNumToken (a :: rest) = some (numTokenTail (a :: rest)) := by
  rw [firstNumToken, if_pos ha]

theorem firstNumToken_neg {A tail : List Char} (hne : A ≠ [])
    (hall : ∀ x ∈ A, isDigitCh x = true) :
    firstNumToken ('-' :: (A ++ tail)) = some ('-' :: numTokenTail (A ++ tail)) := by
  obtain ⟨a, A', rfl⟩ : ∃ a A', A = a :: A' := by
    cases A with
    | nil => exact absurd rfl hne
    | cons a A' => exact ⟨a, A', rfl⟩
  rw [firstNumToken, if_neg (by decide), if_pos ?_]
  rw [List.cons_append]
  simp [hall a (by simp)]

theorem numTokenTail_digits_space {A tail : List Char}
    (hall : ∀ x ∈ A, isDigitCh x = true) :
    numTokenTail (A ++ ' ' :: tail) = A := by
  simp only [numTokenTail,
    takeWhile_digits_append hall (show isDigitCh ' ' = false from by decide),
    List.drop_left]
  simp

theorem numTokenTail_digits_comma {A : List Char} {d : Char} {tail : List Char}
    (hall : ∀ x ∈ A, isDigitCh x = true) (hd : isDigitCh d = true) :
    numTokenTail (A ++ ',' :: d :: ' ' :: tail) = A ++ [',', d] := by
  simp only [numTokenTail,
    takeWhile_digits_append hall (show isDigitCh ',' = false from by decide),
    List.drop_left]
  simp [List.takeWhile_cons, hd, show isDigitCh ' ' = false from by decide]

theorem tryCompact_triliun {cleaned tok : List Char}
    (h1 : containsSub "triliun".data cleaned = true)
    (hf : firstNumToken cleaned = some tok) :
    tryCompact compactUnits cleaned =
      some ((jsParseFloat (replaceFirstChar ',' '.' tok)).getD 0 * 1000000000000) := by
  simp only [compactUnits, tryCompact, h1, if_true, hf]

theorem tryCompact_miliar {cleaned tok : List Char}
    (hn1 : containsSub "triliun".data cleaned = false)
    (h1 : containsSub "miliar".data cleaned = true)
    (hf : firstNumToken cleaned = some tok) :
    tryCompact compactUnits cleaned =
      some ((jsParseFloat (replaceFirstChar ',' '.' tok)).getD 0 * 1000000000) := by
  simp only [compactUnits, tryCompact, hn1, h1, if_true, if_false, Bool.false_eq_true, hf]

theorem tryCompact_juta {cleaned tok : List Char}
    (hn1 : containsSub "triliun".data cleaned = false)
    (hn2 : containsSub "miliar".data cleaned = false)
    (h1 : containsSub "juta".data cleaned = true)
    (hf : firstNumToken cleaned = some tok) :
    tryCompact compactUnits cleaned =
      some ((jsParseFloat (replaceFirstChar ',' '.' tok)).getD 0 * 1000000) := by
  simp only [compactUnits, tryCompact, hn1, hn2, h1, if_true, if_false,
    Bool.false_eq_true, hf]

theorem tryCompact_ribu {cleaned tok : List Char}
    (hn1 : containsSub "triliun".data cleaned = false)
    (hn2 : containsSub "miliar".data cleaned = false)
    (hn3 : containsSub "juta".data cleaned = false)
    (h1 : containsSub "ribu".data cleaned = true)
    (hf : firstNumToken cleaned = some tok) :
    tryCompact compactUnits cleaned =
      some ((jsParseFloat (replaceFirstChar ',' '.' tok)).getD 0 * 1000) := by
  simp only [compactUnits, tryCompact, hn1, hn2, hn3, h1, if_true, if_false,
    Bool.false_eq_true, hf]

/-- In a unit branch whose one-decimal rounding has a fractional part,
`formatCompactValue` renders "int,digit unit". -/
theorem formatCompactValue_frac {v : ℚ} (hv : 0 ≤ v)
    (hmod : (jsRound (v * 10)).toNat % 10 ≠ 0) (u : List Char) :
    formatCompactValue v u =
      natToChars ((jsRound (v * 10)).toNat / 10) ++ ',' ::
        Nat.digitChar ((jsRound (v * 10)).toNat % 10) :: ' ' :: u := by
  have hn0 : 0 ≤ jsRound (v * 10) := jsRound_nonneg (by positivity)
  set n : ℤ := jsRound (v * 10) with hn
  set q : ℚ := (n : ℚ) / 10 with hqdef
  have hq0 : 0 ≤ q := by rw [hqdef]; positivity
  have hqnum0 : 0 ≤ q.num := Rat.num_nonneg.mpr hq0
  have hden_dvd : (q.den : ℤ) ∣ 10 := by
    have hq' : q = Rat.divInt n 10 := by rw [Rat.divInt_eq_div, hqdef]; norm_num
    rw [hq']
    exact Rat.den_dvd n 10
  have hd10 : q.den ∣ 10 := by exact_mod_cast hden_dvd
  have hpos : 0 < q.den := q.den_pos
  have hrel : q.num * 10 = n * (q.den : ℤ) := by
    have hden0 : (q.den : ℚ) ≠ 0 := by
      exact_mod_cast hpos.ne'
    have h1 : (q.num : ℚ) = q * q.den := by
      calc (q.num : ℚ) = (q.num : ℚ) / q.den * q.den := by field_simp
        _ = q * q.den := by rw [Rat.num_div_den]
    have h2 : (q.num : ℚ) * 10 = (n : ℚ) * (q.den : ℚ) := by
      rw [h1, hqdef]
      field_simp
    exact_mod_cast h2
  have hden_ne1 : q.den ≠ 1 := by
    intro h1
    rw [h1] at hrel
    apply hmod
    omega
  have hle : q.den ≤ 10 := Nat.le_of_dvd (by norm_num) hd10
  have hdc : q.den = 2 ∨ q.den = 5 ∨ q.den = 10 := by
    interval_cases h : q.den <;> revert hd10 hden_ne1 <;> decide
  have hdecExp : decExp q.den = 1 := by
    rcases hdc with h | h | h <;> rw [h] <;> decide
  have hm : q.num.natAbs * 10 ^ 1 / q.den = n.toNat := by
    rw [pow_one]
    rcases hdc with h | h | h <;> rw [h] at hrel ⊢ <;> omega
  have hjs : jsToString q =
      natToChars (n.toNat / 10) ++ '.' :: [Nat.digitChar (n.toNat % 10)] := by
    unfold jsToString
    rw [hdecExp, if_neg (not_lt.mpr hq0), if_neg (by norm_num), hm, pow_one]
    have hd1 : 0 < n.toNat % 10 := Nat.pos_of_ne_zero hmod
    rw [natToChars_single hd1 (Nat.mod_lt _ (by norm_num))]
    simp [padZeros]
  unfold formatCompactValue
  rw [← hn, ← hqdef, if_neg hden_ne1, hjs,
    replaceFirstChar_append (fun hmem => natToChars_no_dot _ hmem rfl)]
  simp

theorem getLast?_append_ne {l l' : List Char} (h : l' ≠ []) :
    (l ++ l').getLast? = l'.getLast? := by
  rw [List.getLast?_append]
  cases hg : l'.getLast? with
  | some x => rfl
  | none =>
    cases l' with
    | nil => exact absurd rfl h
    | cons a t => simp at hg

/-- The parser's `cleaned` string for an output of the formatter:
trimming does nothing (the ends are not whitespace) and lowercasing only
affects the leading `R`. -/
theorem cleanedOf_Rp {body : List Char} (hne : body ≠ [])
    (hlow : ∀ c ∈ body, Char.toLower c = c)
    (hlast : ∀ c, body.getLast? = some c → isWs c = false) :
    cleanedOf (String.mk ('R' :: 'p' :: ' ' :: body)) = 'r' :: 'p' :: ' ' :: body := by
  unfold cleanedOf
  have hdata : (String.mk ('R' :: 'p' :: ' ' :: body)).data = 'R' :: 'p' :: ' ' :: body := rfl
  rw [hdata, jsTrim_eq_self ?hh ?hl]
  case hh =>
    intro c hc
    simp only [List.head?_cons] at hc
    obtain rfl : 'R' = c := Option.some_inj.mp hc
    decide
  case hl =>
    intro c hc
    rw [show ('R' :: 'p' :: ' ' :: body) = ['R', 'p', ' '] ++ body from rfl,
      getLast?_append_ne hne] at hc
    exact hlast c hc
  unfold jsToLower
  rw [List.map_cons, List.map_cons, List.map_cons,
    show List.map Char.toLower body = body from jsToLower_fixed hlow,
    show Char.toLower 'R' = 'r' from by decide,
    show Char.toLower 'p' = 'p' from by decide,
    show Char.toLower ' ' = ' ' from by decide]

/-- The parser's `numStr` string for an output of the formatter: the
leading `"rp "` disappears (`"rp"` is stripped, the space trimmed). -/
theorem numStrOf_Rp {body : List Char} (hne : body ≠ [])
    (hlow : ∀ c ∈ body, Char.toLower c = c)
    (hhead : ∀ c, body.head? = some c → isWs c = false)
    (hlast : ∀ c, body.getLast? = some c → isWs c = false)
    (hr : 'r' ∉ body) :
    numStrOf (String.mk ('R' :: 'p' :: ' ' :: body)) = body := by
  unfold numStrOf
  rw [cleanedOf_Rp hne hlow hlast]
  rw [show removeRp ('r' :: 'p' :: ' ' :: body) = removeRp (' ' :: body) from by
    rw [removeRp, if_pos (by decide)]]
  rw [removeRp_no_r (by
    intro hm
    rcases List.mem_cons.mp hm with h' | h'
    · exact absurd h'.symm (by decide)
    · exact hr h')]
  unfold jsTrim
  rw [List.dropWhile_cons, if_pos (by decide), dropWhile_eq_self_of_head hhead,
    dropWhile_eq_self_of_head (by
      intro c hc
      rw [List.head?_reverse] at hc
      exact hlast c hc), List.reverse_reverse]

theorem firstNumToken_digits_lead {A tail : List Char} (hne : A ≠ [])
    (hall : ∀ x ∈ A, isDigitCh x = true) :
    firstNumToken (A ++ tail) = some (numTokenTail (A ++ tail)) := by
  obtain ⟨a, A', rfl⟩ : ∃ a A', A = a :: A' := by
    cases A with
    | nil => exact absurd rfl hne
    | cons a A' => exact ⟨a, A', rfl⟩
  rw [List.cons_append, firstNumToken_from_digit (hall a (by simp))]

theorem group3_digits_le3 {l : List Char} (hall : ∀ c ∈ l, isDigitCh c = true)
    (hlen : l.length ≤ 3) : group3 '.' l = l := by
  induction l with
  | nil => rfl
  | cons c rest ih =>
    have hrest : rest.takeWhile isDigitCh = rest :=
      takeWhile_all (fun x hx => hall x (by simp [hx]))
    have hr2 : rest.length ≤ 2 := by simpa using hlen
    rw [group3]
    simp only [hrest]
    rw [if_neg (by
      simp only [Bool.and_eq_true, decide_eq_true_eq]
      rintro ⟨⟨-, h1⟩, h2⟩
      omega)]
    rw [ih (fun x hx => hall x (by simp [hx])) (by omega)]

theorem group3_four {a b c d : Char} (ha : isDigitCh a = true) (hb : isDigitCh b = true)
    (hc : isDigitCh c = true) (hd : isDigitCh d = true) :
    group3 '.' [a, b, c, d] = [a, '.', b, c, d] := by
  have h3 : List.takeWhile isDigitCh [b, c, d] = [b, c, d] :=
    takeWhile_all (by
      intro x hx
      rcases List.mem_cons.mp hx with rfl | hx'
      · exact hb
      rcases List.mem_cons.mp hx' with rfl | hx''
      · exact hc
      rcases List.mem_cons.mp hx'' with rfl | hx3
      · exact hd
      · simp at hx3)
  rw [group3]
  simp only [h3]
  rw [if_pos (by simp [digit_isWordChar ha])]
  rw [group3_digits_le3 (by
    intro x hx
    rcases List.mem_cons.mp hx with rfl | hx'
    · exact hb
    rcases List.mem_cons.mp hx' with rfl | hx''
    · exact hc
    rcases List.mem_cons.mp hx'' with rfl | hx3
    · exact hd
    · simp at hx3) (by simp)]

theorem group3_five {a b c d e : Char} (ha : isDigitCh a = true) (hb : isDigitCh b = true)
    (hc : isDigitCh c = true) (hd : isDigitCh d = true) (he : isDigitCh e = true) :
    group3 '.' [a, b, c, d, e] = [a, b, '.', c, d, e] := by
  have hall4 : ∀ x ∈ ([b, c, d, e] : List Char), isDigitCh x = true := by
    intro x hx
    rcases List.mem_cons.mp hx with rfl | hx'
    · exact hb
    rcases List.mem_cons.mp hx' with rfl | hx''
    · exact hc
    rcases List.mem_cons.mp hx'' with rfl | hx3
    · exact hd
    rcases List.mem_cons.mp hx3 with rfl | hx4
    · exact he
    · simp at hx4
  have h4 : List.takeWhile isDigitCh [b, c, d, e] = [b, c, d, e] := takeWhile_all hall4
  rw [group3]
  simp only [h4]
  rw [if_neg (by simp)]
  rw [show group3 '.' [b, c, d, e] = [b, '.', c, d, e] from group3_four hb hc hd he]

theorem list_len4 {l : List Char} (h : l.length = 4) :
    ∃ a b c d, l = [a, b, c, d] := by
  rcases l with - | ⟨a, - | ⟨b, - | ⟨c, - | ⟨d, - | ⟨e, t⟩⟩⟩⟩⟩ <;> simp at h
  exact ⟨a, b, c, d, rfl⟩

theorem list_len5 {l : List Char} (h : l.length = 5) :
    ∃ a b c d e, l = [a, b, c, d, e] := by
  rcases l with - | ⟨a, - | ⟨b, - | ⟨c, - | ⟨d, - | ⟨e, - | ⟨f, t⟩⟩⟩⟩⟩⟩ <;> simp at h
  exact ⟨a, b, c, d, e, rfl⟩

/-- Evaluation of `parseRupiah` on a formatter output `"Rp <body>"` whose
compact-unit keyword is found and whose first numeric token parses to
`val`: the result is `val` times the unit's multiplier. -/
theorem parseRupiah_body_eval {body tok u : List Char} {mult val : ℚ}
    (hbody_ne : body ≠ [])
    (hlow : ∀ c ∈ body, Char.toLower c = c)
    (hlast : ∀ c, body.getLast? = some c → isWs c = false)
    (hcont : containsSub u ('r' :: 'p' :: ' ' :: body) = true)
    (htok : firstNumToken ('r' :: 'p' :: ' ' :: body) = some tok)
    (hmem : ∀ x ∈ 'r' :: 'p' :: ' ' :: body,
      isDigitCh x = true ∨ x ∈ (['r', 'p', ' ', '-', ','] : List Char) ∨ x ∈ u)
    (hval : jsParseFloat (replaceFirstChar ',' '.' tok) = some val)
    (htry : ∀ cleaned tok', containsSub u cleaned = true →
      firstNumToken cleaned = some tok' →
      (∀ x ∈ cleaned,
        isDigitCh x = true ∨ x ∈ (['r', 'p', ' ', '-', ','] : List Char) ∨ x ∈ u) →
      tryCompact compactUnits cleaned =
        some ((jsParseFloat (replaceFirstChar ',' '.' tok')).getD 0 * mult)) :
    parseRupiah (String.mk ('R' :: 'p' :: ' ' :: body)) = some (val * mult) := by
  have hclean := cleanedOf_Rp hbody_ne hlow hlast
  unfold parseRupiah
  rw [if_neg (by simp), hclean, htry _ _ hcont htok hmem, hval]
  rfl

/-- Evaluation of `parseRupiah ∘ formatCompact` in a compact-unit branch:
whatever the sign and whether the one-decimal rounding is integral, the
parsed value is `sign · (round(10v)/10) · mult`. -/
theorem parseRupiah_compact_unit {a v mult : ℚ} {u : List Char}
    (hu_ne : u ≠ [])
    (hulow : ∀ c ∈ u, Char.toLower c = c)
    (hulast : ∀ c, u.getLast? = some c → isWs c = false)
    (hv0 : 0 ≤ v) (hv1 : 1 ≤ v)
    (hfc : formatCompact a = String.mk ('R' :: 'p' :: ' ' ::
      (if a < 0 then '-' :: formatCompactValue v u else formatCompactValue v u)))
    (htry : ∀ cleaned tok', containsSub u cleaned = true →
      firstNumToken cleaned = some tok' →
      (∀ x ∈ cleaned,
        isDigitCh x = true ∨ x ∈ (['r', 'p', ' ', '-', ','] : List Char) ∨ x ∈ u) →
      tryCompact compactUnits cleaned =
        some ((jsParseFloat (replaceFirstChar ',' '.' tok')).getD 0 * mult)) :
    parseRupiah (formatCompact a) =
      some ((if a < 0 then -(1 : ℚ) else 1) *
        (((jsRound (v * 10)).toNat : ℚ) / 10 * mult)) := by
  have hn0 : 0 ≤ jsRound (v * 10) := jsRound_nonneg (by positivity)
  set n : ℕ := (jsRound (v * 10)).toNat with hndef
  have hn10 : 10 ≤ n := by
    have h1 : (10 : ℤ) ≤ jsRound (v * 10) := by
      unfold jsRound
      exact Int.le_floor.mpr (by push_cast; linarith)
    omega
  set A := natToChars (n / 10) with hAdef
  have hA_ne : A ≠ [] := natToChars_ne_nil _
  have hA_dig : ∀ c ∈ A, isDigitCh c = true := fun c hc => natToChars_digits c hc
  have hA_low : ∀ c ∈ A, Char.toLower c = c := fun c hc => toLower_of_digit (hA_dig c hc)
  have hA_val : charsToNat A = n / 10 := charsToNat_natToChars _
  have hA_nocomma : ',' ∉ A := fun hm => by
    have h := hA_dig ',' hm
    exact absurd h (by decide)
  have hcast : (10 : ℚ) * ((n / 10 : ℕ) : ℚ) + ((n % 10 : ℕ) : ℚ) = (n : ℚ) := by
    exact_mod_cast Nat.div_add_mod n 10
  by_cases hfr : n % 10 = 0
  · -- integral rendering "<int> <unit>"
    have hresv : formatCompactValue v u = A ++ ' ' :: u := by
      rw [formatCompactValue_int hv0 (by omega)]
    have hbody_ne : A ++ ' ' :: u ≠ [] := by simp [hA_ne]
    have hlow : ∀ c ∈ A ++ ' ' :: u, Char.toLower c = c := by
      intro c hcm
      rcases List.mem_append.mp hcm with h | h
      · exact hA_low c h
      rcases List.mem_cons.mp h with rfl | h'
      · decide
      · exact hulow c h'
    have hlast : ∀ c, (A ++ ' ' :: u).getLast? = some c → isWs c = false := by
      intro c hcl
      rw [show A ++ ' ' :: u = (A ++ [' ']) ++ u from by simp,
        getLast?_append_ne hu_ne] at hcl
      exact hulast c hcl
    have hmem : ∀ x ∈ 'r' :: 'p' :: ' ' :: (A ++ ' ' :: u),
        isDigitCh x = true ∨ x ∈ (['r', 'p', ' ', '-', ','] : List Char) ∨ x ∈ u := by
      intro x hx
      rcases List.mem_cons.mp hx with rfl | hx
      · right; left; simp
      rcases List.mem_cons.mp hx with rfl | hx
      · right; left; simp
      rcases List.mem_cons.mp hx with rfl | hx
      · right; left; simp
      rcases List.mem_append.mp hx with h | h
      · exact Or.inl (hA_dig x h)
      rcases List.mem_cons.mp h with rfl | h'
      · right; left; simp
      · right; right; exact h'
    have hcont : containsSub u ('r' :: 'p' :: ' ' :: (A ++ ' ' :: u)) = true := by
      rw [show 'r' :: 'p' :: ' ' :: (A ++ ' ' :: u) =
        ('r' :: 'p' :: ' ' :: (A ++ [' '])) ++ u from by simp]
      exact containsSub_append _ _
    have hvalA : jsParseFloat (replaceFirstChar ',' '.' A) = some ((n / 10 : ℕ) : ℚ) := by
      rw [replaceFirstChar_not_mem hA_nocomma, jsParseFloat_digits hA_ne hA_dig, hA_val]
      rfl
    have hvcast : ((n / 10 : ℕ) : ℚ) = (n : ℚ) / 10 := by
      rw [Nat.cast_div (by omega : (10 : ℕ) ∣ n) (by norm_num)]
      norm_num
    by_cases hneg : a < 0
    · rw [hfc, hresv]
      simp only [if_pos hneg]
      have htok : firstNumToken ('r' :: 'p' :: ' ' :: ('-' :: (A ++ ' ' :: u))) =
          some ('-' :: A) := by
        rw [firstNumToken_skip (by decide) (by decide),
          firstNumToken_skip (by decide) (by decide),
          firstNumToken_skip (by decide) (by decide),
          firstNumToken_neg hA_ne hA_dig, numTokenTail_digits_space hA_dig]
      rw [parseRupiah_body_eval (by simp) ?hlow2 ?hlast2 ?hcont2 htok ?hmem2 ?hval2 htry]
      case hlow2 =>
        intro c hcm
        rcases List.mem_cons.mp hcm with rfl | h'
        · decide
        · exact hlow c h'
      case hlast2 =>
        intro c hcl
        rw [show '-' :: (A ++ ' ' :: u) = ['-'] ++ (A ++ ' ' :: u) from rfl,
          getLast?_append_ne hbody_ne] at hcl
        exact hlast c hcl
      case hcont2 =>
        rw [show 'r' :: 'p' :: ' ' :: ('-' :: (A ++ ' ' :: u)) =
          ('r' :: 'p' :: ' ' :: '-' :: (A ++ [' '])) ++ u from by simp]
        exact containsSub_append _ _
      case hmem2 =>
        intro x hx
        rcases List.mem_cons.mp hx with rfl | hx
        · right; left; simp
        rcases List.mem_cons.mp hx with rfl | hx
        · right; left; simp
        rcases List.mem_cons.mp hx with rfl | hx
        · right; left; simp
        rcases List.mem_cons.mp hx with rfl | hx
        · right; left; simp
        exact hmem x (by simp [hx])
      case hval2 =>
        rw [show replaceFirstChar ',' '.' ('-' :: A) = '-' :: A from
          replaceFirstChar_not_mem (by
            intro hm
            rcases List.mem_cons.mp hm with h' | h'
            · exact absurd h'.symm (by decide)
            · exact hA_nocomma h'),
          jsParseFloat_neg_digits hA_ne hA_dig, hA_val]
      rw [hvcast]
      congr 1
      ring
    · rw [hfc, hresv]
      simp only [if_neg hneg]
      have htok : firstNumToken ('r' :: 'p' :: ' ' :: (A ++ ' ' :: u)) = some A := by
        rw [firstNumToken_skip (by decide) (by decide),
          firstNumToken_skip (by decide) (by decide),
          firstNumToken_skip (by decide) (by decide),
          firstNumToken_digits_lead hA_ne hA_dig, numTokenTail_digits_space hA_dig]
      rw [parseRupiah_body_eval hbody_ne hlow hlast hcont htok hmem hvalA htry]
      rw [hvcast]
      congr 1
      ring
  · -- fractional rendering "<int>,<digit> <unit>"
    have hdlt : n % 10 < 10 := Nat.mod_lt _ (by norm_num)
    set dch := Nat.digitChar (n % 10) with hdch
    have hd_dig : isDigitCh dch = true := digitChar_isDigitCh hdlt
    have hresv : formatCompactValue v u = A ++ ',' :: dch :: ' ' :: u := by
      rw [formatCompactValue_frac hv0 (by omega)]
    have hbody_ne : A ++ ',' :: dch :: ' ' :: u ≠ [] := by simp [hA_ne]
    have hlow : ∀ c ∈ A ++ ',' :: dch :: ' ' :: u, Char.toLower c = c := by
      intro c hcm
      rcases List.mem_append.mp hcm with h | h
      · exact hA_low c h
      rcases List.mem_cons.mp h with rfl | h'
      · decide
      rcases List.mem_cons.mp h' with rfl | h''
      · exact toLower_of_digit hd_dig
      rcases List.mem_cons.mp h'' with rfl | h3
      · decide
      · exact hulow c h3
    have hlast : ∀ c, (A ++ ',' :: dch :: ' ' :: u).getLast? = some c → isWs c = false := by
      intro c hcl
      rw [show A ++ ',' :: dch :: ' ' :: u = (A ++ [',', dch, ' ']) ++ u from by simp,
        getLast?_append_ne hu_ne] at hcl
      exact hulast c hcl
    have hmem : ∀ x ∈ 'r' :: 'p' :: ' ' :: (A ++ ',' :: dch :: ' ' :: u),
        isDigitCh x = true ∨ x ∈ (['r', 'p', ' ', '-', ','] : List Char) ∨ x ∈ u := by
      intro x hx
      rcases List.mem_cons.mp hx with rfl | hx
      · right; left; simp
      rcases List.mem_cons.mp hx with rfl | hx
      · right; left; simp
      rcases List.mem_cons.mp hx with rfl | hx
      · right; left; simp
      rcases List.mem_append.mp hx with h | h
      · exact Or.inl (hA_dig x h)
      rcases List.mem_cons.mp h with rfl | h'
      · right; left; simp
      rcases List.mem_cons.mp h' with rfl | h''
      · exact Or.inl hd_dig
      rcases List.mem_cons.mp h'' with rfl | h3
      · right; left; simp
      · right; right; exact h3
    have hcont : containsSub u ('r' :: 'p' :: ' ' :: (A ++ ',' :: dch :: ' ' :: u)) = true := by
      rw [show 'r' :: 'p' :: ' ' :: (A ++ ',' :: dch :: ' ' :: u) =
        ('r' :: 'p' :: ' ' :: (A ++ [',', dch, ' '])) ++ u from by simp]
      exact containsSub_append _ _
    have hsingle : charsToNat [dch] = n % 10 := by
      simp [charsToNat, charVal_digitChar hdlt]
    have hvalA : jsParseFloat (replaceFirstChar ',' '.' (A ++ [',', dch])) =
        some (((n / 10 : ℕ) : ℚ) + ((n % 10 : ℕ) : ℚ) / 10) := by
      rw [show (A ++ [',', dch] : List Char) = A ++ ',' :: [dch] from rfl,
        replaceFirstChar_append hA_nocomma,
        jsParseFloat_frac hA_ne hA_dig (by
          intro x hxm
          rcases List.mem_singleton.mp hxm with rfl
          exact hd_dig),
        hA_val, hsingle]
      norm_num
    have hvsum : (((n / 10 : ℕ) : ℚ) + ((n % 10 : ℕ) : ℚ) / 10) = (n : ℚ) / 10 := by
      field_simp
      linarith [hcast]
    by_cases hneg : a < 0
    · rw [hfc, hresv]
      simp only [if_pos hneg]
      have htok : firstNumToken ('r' :: 'p' :: ' ' :: ('-' :: (A ++ ',' :: dch :: ' ' :: u))) =
          some ('-' :: (A ++ [',', dch])) := by
        rw [firstNumToken_skip (by decide) (by decide),
          firstNumToken_skip (by decide) (by decide),
          firstNumToken_skip (by decide) (by decide),
          firstNumToken_neg hA_ne hA_dig, numTokenTail_digits_comma hA_dig hd_dig]
      have hlow2 : ∀ c ∈ '-' :: (A ++ ',' :: dch :: ' ' :: u), Char.toLower c = c := by
        intro c hcm
        rcases List.mem_cons.mp hcm with rfl | h'
        · decide
        · exact hlow c h'
      have hlast2 : ∀ c, ('-' :: (A ++ ',' :: dch :: ' ' :: u)).getLast? = some c →
          isWs c = false := by
        intro c hcl
        rw [show '-' :: (A ++ ',' :: dch :: ' ' :: u) =
          ['-'] ++ (A ++ ',' :: dch :: ' ' :: u) from rfl,
          getLast?_append_ne hbody_ne] at hcl
        exact hlast c hcl
      have hcont2 : containsSub u
          ('r' :: 'p' :: ' ' :: ('-' :: (A ++ ',' :: dch :: ' ' :: u))) = true := by
        rw [show 'r' :: 'p' :: ' ' :: ('-' :: (A ++ ',' :: dch :: ' ' :: u)) =
          ('r' :: 'p' :: ' ' :: '-' :: (A ++ [',', dch, ' '])) ++ u from by simp]
        exact containsSub_append _ _
      have hmem2 : ∀ x ∈ 'r' :: 'p' :: ' ' :: ('-' :: (A ++ ',' :: dch :: ' ' :: u)),
          isDigitCh x = true ∨ x ∈ (['r', 'p', ' ', '-', ','] : List Char) ∨ x ∈ u := by
        intro x hx
        rcases List.mem_cons.mp hx with rfl | hx
        · right; left; simp
        rcases List.mem_cons.mp hx with rfl | hx
        · right; left; simp
        rcases List.mem_cons.mp hx with rfl | hx
        · right; left; simp
        rcases List.mem_cons.mp hx with rfl | hx
        · right; left; simp
        exact hmem x (by simp [hx])
      have hvalNeg : jsParseFloat (replaceFirstChar ',' '.' ('-' :: (A ++ [',', dch]))) =
          some (-(((n / 10 : ℕ) : ℚ) + ((n % 10 : ℕ) : ℚ) / 10)) := by
        rw [show replaceFirstChar ',' '.' ('-' :: (A ++ [',', dch])) =
          '-' :: replaceFirstChar ',' '.' (A ++ [',', dch]) from by
            rw [replaceFirstChar, if_neg (by decide)],
          show (A ++ [',', dch] : List Char) = A ++ ',' :: [dch] from rfl,
          replaceFirstChar_append hA_nocomma,
          jsParseFloat_neg_frac hA_ne hA_dig (by
            intro x hxm
            rcases List.mem_singleton.mp hxm with rfl
            exact hd_dig),
          hA_val, hsingle]
        norm_num
      rw [parseRupiah_body_eval (by simp) hlow2 hlast2 hcont2 htok hmem2 hvalNeg htry]
      rw [hvsum]
      congr 1
      ring
    · rw [hfc, hresv]
      simp only [if_neg hneg]
      have htok : firstNumToken ('r' :: 'p' :: ' ' :: (A ++ ',' :: dch :: ' ' :: u)) =
          some (A ++ [',', dch]) := by
        rw [firstNumToken_skip (by decide) (by decide),
          firstNumToken_skip (by decide) (by decide),
          firstNumToken_skip (by decide) (by decide),
          firstNumToken_digits_lead hA_ne hA_dig, numTokenTail_digits_comma hA_dig hd_dig]
      rw [parseRupiah_body_eval hbody_ne hlow hlast hcont htok hmem hvalA htry]
      rw [hvsum]
      congr 1
      ring

theorem mem_of_getLastSome {l : List Char} {c : Char} (h : l.getLast? = some c) : c ∈ l := by
  rw [← List.head?_reverse] at h
  cases hl : l.reverse with
  | nil => rw [hl] at h; simp at h
  | cons x t =>
    rw [hl, List.head?_cons] at h
    have hc : x = c := Option.some_inj.mp h
    rw [← hc]
    have hx : x ∈ l.reverse := by rw [hl]; simp
    simpa using hx

/-- A keyword containing a character that is neither a digit, one of the
parser-introduced characters, nor a character of the current unit cannot
occur in a `cleaned` string built from those alphabets. -/
theorem containsSub_false_of_char {needle u cleaned : List Char} {ch : Char}
    (hch : ch ∈ needle) (hd : isDigitCh ch = false)
    (hs : ch ∉ (['r', 'p', ' ', '-', ','] : List Char)) (hu : ch ∉ u)
    (hmem : ∀ x ∈ cleaned,
      isDigitCh x = true ∨ x ∈ (['r', 'p', ' ', '-', ','] : List Char) ∨ x ∈ u) :
    containsSub needle cleaned = false := by
  refine containsSub_false_of_missing hch ?_
  intro hc
  rcases hmem ch hc with h | h | h
  · rw [hd] at h; exact absurd h (by simp)
  · exact hs h
  · exact hu h

/-- The parsed-back value of a compact-unit rendering differs from the
amount by at most a twentieth of the unit's multiplier (half of the
one-decimal-place increment). -/
theorem compact_unit_bound {a v mult : ℚ} (hmult : 0 < mult) (hv : v = |a| / mult) :
    |(if a < 0 then -(1 : ℚ) else 1) *
        (((jsRound (v * 10)).toNat : ℚ) / 10 * mult) - a| ≤ mult / 20 := by
  have hv0 : 0 ≤ v := by rw [hv]; exact div_nonneg (abs_nonneg a) hmult.le
  have hn0 : 0 ≤ jsRound (v * 10) := jsRound_nonneg (mul_nonneg hv0 (by norm_num))
  have hcast : ((jsRound (v * 10)).toNat : ℚ) = ((jsRound (v * 10) : ℤ) : ℚ) := by
    exact_mod_cast Int.toNat_of_nonneg hn0
  have hround : |((jsRound (v * 10) : ℤ) : ℚ) - v * 10| ≤ 1 / 2 := abs_jsRound_sub (v * 10)
  have hvm : v * mult = |a| := by rw [hv, div_mul_cancel₀ _ hmult.ne']
  have h20 : (0 : ℚ) ≤ mult / 10 := by linarith
  by_cases hneg : a < 0
  · rw [if_pos hneg, hcast]
    have ha : a = -(v * mult) := by rw [hvm, abs_of_neg hneg]; ring
    have heq : (-1 : ℚ) * (((jsRound (v * 10) : ℤ) : ℚ) / 10 * mult) - a =
        -(mult / 10) * (((jsRound (v * 10) : ℤ) : ℚ) - v * 10) := by
      rw [ha]; ring
    rw [heq, abs_mul, abs_neg, abs_of_nonneg h20]
    calc mult / 10 * |((jsRound (v * 10) : ℤ) : ℚ) - v * 10| ≤ mult / 10 * (1 / 2) :=
          mul_le_mul_of_nonneg_left hround h20
      _ = mult / 20 := by ring
  · rw [if_neg hneg, hcast]
    have ha : a = v * mult := by
      rw [hvm]
      exact (abs_of_nonneg (not_lt.mp hneg)).symm
    have heq : (1 : ℚ) * (((jsRound (v * 10) : ℤ) : ℚ) / 10 * mult) - a =
        mult / 10 * (((jsRound (v * 10) : ℤ) : ℚ) - v * 10) := by
      rw [ha]; ring
    rw [heq, abs_mul, abs_of_nonneg h20]
    calc mult / 10 * |((jsRound (v * 10) : ℤ) : ℚ) - v * 10| ≤ mult / 10 * (1 / 2) :=
          mul_le_mul_of_nonneg_left hround h20
      _ = mult / 20 := by ring

/-- Without separators, the disambiguation of `parsePlain` is the
identity. -/
theorem parsePlain_no_sep {l : List Char} (hdot : '.' ∉ l) (hcomma : ',' ∉ l) :
    parsePlain l = jsParseFloat l := by
  have hnd : l.any (fun c => c = '.') = false := by
    rw [Bool.eq_false_iff]
    intro h
    obtain ⟨x, hx, hx'⟩ := List.any_eq_true.mp h
    exact hdot (by rwa [show x = '.' from by simpa using hx'] at hx)
  have hnc : l.any (fun c => c = ',') = false := by
    rw [Bool.eq_false_iff]
    intro h
    obtain ⟨x, hx, hx'⟩ := List.any_eq_true.mp h
    exact hcomma (by rwa [show x = ',' from by simpa using hx'] at hx)
  simp only [parsePlain, hnd, hnc, Bool.false_and, Bool.false_eq_true, if_false]

/-- A dot between digit blocks whose tail block has more than two digits
is treated as a thousands separator and removed by `parsePlain`. -/
theorem parsePlain_dot_grouped {A B : List Char} (hA : A ≠ []) (hB2 : 2 < B.length)
    (hAd : ∀ c ∈ A, isDigitCh c = true) (hBd : ∀ c ∈ B, isDigitCh c = true) :
    parsePlain (A ++ '.' :: B) = some ((charsToNat (A ++ B) : ℚ)) := by
  have hnc : ',' ∉ A ++ '.' :: B := by
    intro h
    rcases List.mem_append.mp h with h | h
    · exact absurd (hAd ',' h) (by decide)
    rcases List.mem_cons.mp h with h | h
    · exact absurd h (by decide)
    · exact absurd (hBd ',' h) (by decide)
  have hanyc : (A ++ '.' :: B).any (fun c => c = ',') = false := by
    rw [Bool.eq_false_iff]
    intro h
    obtain ⟨x, hx, hx'⟩ := List.any_eq_true.mp h
    exact hnc (by rwa [show x = ',' from by simpa using hx'] at hx)
  have hanyd : (A ++ '.' :: B).any (fun c => c = '.') = true := by
    rw [List.any_eq_true]
    exact ⟨'.', by simp, by simp⟩
  have hsplit : splitChar '.' (A ++ '.' :: B) = [A, B] := by
    rw [splitChar_append (fun c hc => digit_ne_dot (hAd c hc)),
      splitChar_no_sep (fun c hc => digit_ne_dot (hBd c hc))]
  have hfilt : (A ++ '.' :: B).filter (fun c => c ≠ '.') = A ++ B := by
    rw [List.filter_append, List.filter_cons_of_neg (by simp),
      List.filter_eq_self.mpr (fun c hc => by simpa using digit_ne_dot (hAd c hc)),
      List.filter_eq_self.mpr (fun c hc => by simpa using digit_ne_dot (hBd c hc))]
  have hAB_ne : A ++ B ≠ [] := by simp [hA]
  have hAB_dig : ∀ c ∈ A ++ B, isDigitCh c = true := by
    intro c hc
    rcases List.mem_append.mp hc with h | h
    · exact hAd c h
    · exact hBd c h
  simp only [parsePlain, hanyd, hanyc, Bool.and_false, Bool.false_eq_true, if_false,
    eq_self_iff_true, if_true, hsplit]
  rw [if_pos ?hcond, hfilt, jsParseFloat_digits hAB_ne hAB_dig]
  · rfl
  case hcond =>
    rw [show (([A, B] : List (List Char)).getD 1 []) = B from rfl, decide_eq_true hB2]
    rfl

/-- The negative version of `parsePlain_dot_grouped`. -/
theorem parsePlain_dot_grouped_neg {A B : List Char} (hA : A ≠ []) (hB2 : 2 < B.length)
    (hAd : ∀ c ∈ A, isDigitCh c = true) (hBd : ∀ c ∈ B, isDigitCh c = true) :
    parsePlain ('-' :: (A ++ '.' :: B)) = some (-(charsToNat (A ++ B) : ℚ)) := by
  have hnc : ',' ∉ '-' :: (A ++ '.' :: B) := by
    intro h
    rcases List.mem_cons.mp h with h | h
    · exact absurd h (by decide)
    rcases List.mem_append.mp h with h | h
    · exact absurd (hAd ',' h) (by decide)
    rcases List.mem_cons.mp h with h | h
    · exact absurd h (by decide)
    · exact absurd (hBd ',' h) (by decide)
  have hanyc : ('-' :: (A ++ '.' :: B)).any (fun c => c = ',') = false := by
    rw [Bool.eq_false_iff]
    intro h
    obtain ⟨x, hx, hx'⟩ := List.any_eq_true.mp h
    exact hnc (by rwa [show x = ',' from by simpa using hx'] at hx)
  have hanyd : ('-' :: (A ++ '.' :: B)).any (fun c => c = '.') = true := by
    rw [List.any_eq_true]
    exact ⟨'.', by simp, by simp⟩
  have hsplit : splitChar '.' ('-' :: (A ++ '.' :: B)) = [('-' :: A), B] := by
    rw [show '-' :: (A ++ '.' :: B) = ('-' :: A) ++ '.' :: B from rfl,
      splitChar_append (by
        intro c hc
        rcases List.mem_cons.mp hc with rfl | hc
        · decide
        · exact digit_ne_dot (hAd c hc)),
      splitChar_no_sep (fun c hc => digit_ne_dot (hBd c hc))]
  have hfilt : ('-' :: (A ++ '.' :: B)).filter (fun c => c ≠ '.') = '-' :: (A ++ B) := by
    rw [List.filter_cons_of_pos (by simp), List.filter_append,
      List.filter_cons_of_neg (by simp),
      List.filter_eq_self.mpr (fun c hc => by simpa using digit_ne_dot (hAd c hc)),
      List.filter_eq_self.mpr (fun c hc => by simpa using digit_ne_dot (hBd c hc))]
  have hAB_ne : A ++ B ≠ [] := by simp [hA]
  have hAB_dig : ∀ c ∈ A ++ B, isDigitCh c = true := by
    intro c hc
    rcases List.mem_append.mp hc with h | h
    · exact hAd c h
    · exact hBd c h
  simp only [parsePlain, hanyd, hanyc, Bool.and_false, Bool.false_eq_true, if_false,
    eq_self_iff_true, if_true, hsplit]
  have hcond : (decide ((['-' :: A, B] : List (List Char)).length > 2) ||
      (decide ((['-' :: A, B] : List (List Char)).length = 2) &&
        decide (((['-' :: A, B] : List (List Char)).getD 1 []).length > 2))) = true := by
    rw [show ((['-' :: A, B] : List (List Char)).getD 1 []) = B from rfl,
      decide_eq_true hB2]
    rfl
  rw [if_pos hcond, hfilt, jsParseFloat_neg_digits hAB_ne hAB_dig]

/-- On a formatter output `"Rp <body>"` whose body contains only digits,
a leading minus and grouping dots, no compact-unit keyword matches and
`parseRupiah` reduces to `parsePlain` of the body. -/
theorem parseRupiah_no_unit {body : List Char} (hne : body ≠ [])
    (hlow : ∀ c ∈ body, Char.toLower c = c)
    (hhead : ∀ c, body.head? = some c → isWs c = false)
    (hlast : ∀ c, body.getLast? = some c → isWs c = false)
    (hmem : ∀ x ∈ body, isDigitCh x = true ∨ x ∈ (['-', '.'] : List Char)) :
    parseRupiah (String.mk ('R' :: 'p' :: ' ' :: body)) = parsePlain body := by
  have hr : 'r' ∉ body := by
    intro hm
    rcases hmem 'r' hm with h | h
    · exact absurd h (by decide)
    · exact absurd h (by decide)
  have hexcl : ∀ ch : Char, isDigitCh ch = false →
      ch ∉ (['r', 'p', ' ', '-', '.'] : List Char) → ch ∉ 'r' :: 'p' :: ' ' :: body := by
    intro ch hd hs hin
    rcases List.mem_cons.mp hin with rfl | hin
    · exact hs (by simp)
    rcases List.mem_cons.mp hin with rfl | hin
    · exact hs (by simp)
    rcases List.mem_cons.mp hin with rfl | hin
    · exact hs (by simp)
    rcases hmem ch hin with h | h
    · rw [hd] at h; exact absurd h (by simp)
    · rcases List.mem_cons.mp h with rfl | h'
      · exact hs (by simp)
      · exact hs (by simp [List.mem_singleton.mp h'])
  have hnone : tryCompact compactUnits ('r' :: 'p' :: ' ' :: body) = none := by
    apply tryCompact_none
    intro u hu
    have h4 : u = ("triliun".data, (1000000000000 : ℚ)) ∨
        u = ("miliar".data, (1000000000 : ℚ)) ∨
        u = ("juta".data, (1000000 : ℚ)) ∨ u = ("ribu".data, (1000 : ℚ)) := by
      simpa [compactUnits] using hu
    rcases h4 with rfl | rfl | rfl | rfl
    · exact containsSub_false_of_missing (show 't' ∈ "triliun".data from by decide)
        (hexcl 't' (by decide) (by decide))
    · exact containsSub_false_of_missing (show 'm' ∈ "miliar".data from by decide)
        (hexcl 'm' (by decide) (by decide))
    · exact containsSub_false_of_missing (show 'j' ∈ "juta".data from by decide)
        (hexcl 'j' (by decide) (by decide))
    · exact containsSub_false_of_missing (show 'b' ∈ "ribu".data from by decide)
        (hexcl 'b' (by decide) (by decide))
  unfold parseRupiah
  rw [if_neg (by simp), cleanedOf_Rp hne hlow hlast, hnone,
    numStrOf_Rp hne hlow hhead hlast hr]

/-- `parseRupiah ∘ formatCompact` in the triliun branch. -/
theorem compact_parse_triliun {a : ℚ} (h1 : 1000000000000 ≤ |a|) :
    parseRupiah (formatCompact a) =
      some ((if a < 0 then -(1 : ℚ) else 1) *
        (((jsRound (|a| / 1000000000000 * 10)).toNat : ℚ) / 10 * 1000000000000)) := by
  refine parseRupiah_compact_unit (show ("triliun".data : List Char) ≠ [] from by decide)
    (by decide) ?_ (div_nonneg (abs_nonneg a) (by norm_num))
    (by rw [le_div_iff₀ (by norm_num)]; linarith) ?_ ?_
  · intro c hc
    rw [show ("triliun".data).getLast? = some 'n' from rfl] at hc
    have h := Option.some_inj.mp hc
    rw [← h]
    decide
  · simp only [formatCompact, h1, if_true]
    by_cases hneg : a < 0
    · simp [hneg]
    · simp [hneg]
  · intro cleaned tok' hc hf _
    exact tryCompact_triliun hc hf

/-- `parseRupiah ∘ formatCompact` in the miliar branch. -/
theorem compact_parse_miliar {a : ℚ} (h1 : 1000000000 ≤ |a|)
    (h2 : |a| < 1000000000000) :
    parseRupiah (formatCompact a) =
      some ((if a < 0 then -(1 : ℚ) else 1) *
        (((jsRound (|a| / 1000000000 * 10)).toNat : ℚ) / 10 * 1000000000)) := by
  have hn1 : ¬((1000000000000 : ℚ) ≤ |a|) := by linarith
  refine parseRupiah_compact_unit (show ("miliar".data : List Char) ≠ [] from by decide)
    (by decide) ?_ (div_nonneg (abs_nonneg a) (by norm_num))
    (by rw [le_div_iff₀ (by norm_num)]; linarith) ?_ ?_
  · intro c hc
    rw [show ("miliar".data).getLast? = some 'r' from rfl] at hc
    have h := Option.some_inj.mp hc
    rw [← h]
    decide
  · simp only [formatCompact, hn1, h1, if_true, if_false]
    by_cases hneg : a < 0
    · simp [hneg]
    · simp [hneg]
  · intro cleaned tok' hc hf hmem
    exact tryCompact_miliar
      (containsSub_false_of_char (show 't' ∈ "triliun".data from by decide)
        (by decide) (by decide) (by decide) hmem) hc hf

/-- `parseRupiah ∘ formatCompact` in the juta branch. -/
theorem compact_parse_juta {a : ℚ} (h1 : 1000000 ≤ |a|) (h2 : |a| < 1000000000) :
    parseRupiah (formatCompact a) =
      some ((if a < 0 then -(1 : ℚ) else 1) *
        (((jsRound (|a| / 1000000 * 10)).toNat : ℚ) / 10 * 1000000)) := by
  have hn1 : ¬((1000000000000 : ℚ) ≤ |a|) := by linarith
  have hn2 : ¬((1000000000 : ℚ) ≤ |a|) := by linarith
  refine parseRupiah_compact_unit (show ("juta".data : List Char) ≠ [] from by decide)
    (by decide) ?_ (div_nonneg (abs_nonneg a) (by norm_num))
    (by rw [le_div_iff₀ (by norm_num)]; linarith) ?_ ?_
  · intro c hc
    rw [show ("juta".data).getLast? = some 'a' from rfl] at hc
    have h := Option.some_inj.mp hc
    rw [← h]
    decide
  · simp only [formatCompact, hn1, hn2, h1, if_true, if_false]
    by_cases hneg : a < 0
    · simp [hneg]
    · simp [hneg]
  · intro cleaned tok' hc hf hmem
    exact tryCompact_juta
      (containsSub_false_of_char (show 'l' ∈ "triliun".data from by decide)
        (by decide) (by decide) (by decide) hmem)
      (containsSub_false_of_char (show 'm' ∈ "miliar".data from by decide)
        (by decide) (by decide) (by decide) hmem) hc hf

/-- `parseRupiah ∘ formatCompact` in the ribu branch (selected from
`100000`, but dividing by `1000`). -/
theorem compact_parse_ribu {a : ℚ} (h1 : 100000 ≤ |a|) (h2 : |a| < 1000000) :
    parseRupiah (formatCompact a) =
      some ((if a < 0 then -(1 : ℚ) else 1) *
        (((jsRound (|a| / 1000 * 10)).toNat : ℚ) / 10 * 1000)) := by
  have hn1 : ¬((1000000000000 : ℚ) ≤ |a|) := by linarith
  have hn2 : ¬((1000000000 : ℚ) ≤ |a|) := by linarith
  have hn3 : ¬((1000000 : ℚ) ≤ |a|) := by linarith
  refine parseRupiah_compact_unit (show ("ribu".data : List Char) ≠ [] from by decide)
    (by decide) ?_ (div_nonneg (abs_nonneg a) (by norm_num))
    (by rw [le_div_iff₀ (by norm_num)]; linarith) ?_ ?_
  · intro c hc
    rw [show ("ribu".data).getLast? = some 'u' from rfl] at hc
    have h := Option.some_inj.mp hc
    rw [← h]
    decide
  · simp only [formatCompact, hn1, hn2, hn3, h1, if_true, if_false]
    by_cases hneg : a < 0
    · simp [hneg]
    · simp [hneg]
  · intro cleaned tok' hc hf hmem
    exact tryCompact_ribu
      (containsSub_false_of_char (show 't' ∈ "triliun".data from by decide)
        (by decide) (by decide) (by decide) hmem)
      (containsSub_false_of_char (show 'm' ∈ "miliar".data from by decide)
        (by decide) (by decide) (by decide) hmem)
      (containsSub_false_of_char (show 'j' ∈ "juta".data from by decide)
        (by decide) (by decide) (by decide) hmem) hc hf

/-- Integer amounts below `1000` are rendered as plain digit strings and
parsed back exactly. -/
theorem compact_parse_plain (a : ℤ) (h2 : a.natAbs < 1000) :
    parseRupiah (formatCompact (a : ℚ)) = some (a : ℚ) := by
  have habs : |(a : ℚ)| = (a.natAbs : ℚ) := by rw [Int.cast_natAbs, Int.cast_abs]
  have hlt : |(a : ℚ)| < 1000 := by rw [habs]; exact_mod_cast h2
  have hn1 : ¬((1000000000000 : ℚ) ≤ |(a : ℚ)|) := by linarith
  have hn2 : ¬((1000000000 : ℚ) ≤ |(a : ℚ)|) := by linarith
  have hn3 : ¬((1000000 : ℚ) ≤ |(a : ℚ)|) := by linarith
  have hn4 : ¬((100000 : ℚ) ≤ |(a : ℚ)|) := by linarith
  have hn5 : ¬((1000 : ℚ) ≤ |(a : ℚ)|) := not_le.mpr hlt
  have hD_ne : natToChars a.natAbs ≠ [] := natToChars_ne_nil _
  have hD_dig : ∀ c ∈ natToChars a.natAbs, isDigitCh c = true :=
    fun c hc => natToChars_digits c hc
  have hfc : formatCompact (a : ℚ) = String.mk ('R' :: 'p' :: ' ' ::
      (if (a : ℚ) < 0 then '-' :: natToChars a.natAbs else natToChars a.natAbs)) := by
    simp only [formatCompact, hn1, hn2, hn3, hn4, hn5, if_false]
    rw [habs, jsToString_natCast]
    by_cases hneg : (a : ℚ) < 0
    · simp [hneg]
    · simp [hneg]
  have hdot : '.' ∉ natToChars a.natAbs := fun hm =>
    absurd (hD_dig '.' hm) (by decide)
  have hcomma : ',' ∉ natToChars a.natAbs := fun hm =>
    absurd (hD_dig ',' hm) (by decide)
  rw [hfc]
  by_cases hneg : (a : ℚ) < 0
  · rw [if_pos hneg]
    rw [parseRupiah_no_unit (show ('-' :: natToChars a.natAbs : List Char) ≠ [] from
        by simp)
      (by
        intro c hcm
        rcases List.mem_cons.mp hcm with rfl | h'
        · decide
        · exact toLower_of_digit (hD_dig c h'))
      (by
        intro c hc
        rw [List.head?_cons] at hc
        have h := Option.some_inj.mp hc
        rw [← h]
        decide)
      (by
        intro c hc
        rw [show ('-' :: natToChars a.natAbs : List Char) =
          ['-'] ++ natToChars a.natAbs from rfl, getLast?_append_ne hD_ne] at hc
        exact digit_not_ws (hD_dig c (mem_of_getLastSome hc)))
      (by
        intro x hx
        rcases List.mem_cons.mp hx with rfl | hx
        · right; simp
        · exact Or.inl (hD_dig x hx))]
    rw [parsePlain_no_sep (by
        intro hm
        rcases List.mem_cons.mp hm with h | h
        · exact absurd h (by decide)
        · exact hdot h)
      (by
        intro hm
        rcases List.mem_cons.mp hm with h | h
        · exact absurd h (by decide)
        · exact hcomma h)]
    rw [jsParseFloat_neg_digits hD_ne hD_dig, charsToNat_natToChars]
    congr 1
    rw [← habs, abs_of_neg hneg]
    ring
  · rw [if_neg hneg]
    rw [parseRupiah_no_unit hD_ne
      (fun c hc => toLower_of_digit (hD_dig c hc))
      (by
        intro c hc
        cases hD : natToChars a.natAbs with
        | nil => exact absurd hD hD_ne
        | cons d t =>
          rw [hD, List.head?_cons] at hc
          have h := Option.some_inj.mp hc
          rw [← h]
          exact digit_not_ws (hD_dig d (by rw [hD]; simp)))
      (fun c hc => digit_not_ws (hD_dig c (mem_of_getLastSome hc)))
      (fun x hx => Or.inl (hD_dig x hx))]
    have hred : parsePlain (natToChars a.natAbs) = some ((a.natAbs : ℚ)) := by
      rw [parsePlain_no_sep hdot hcomma, jsParseFloat_digits hD_ne hD_dig,
        charsToNat_natToChars]
      rfl
    rw [hred]
    congr 1
    rw [← habs, abs_of_nonneg (not_lt.mp hneg)]

/-- Round trip through the grouped branch: a digit string with one
grouping dot (tail block longer than two digits) parses back to its
digits, with and without a leading minus. -/
theorem compact_parse_grouped_core {A B : List Char} (hA : A ≠ []) (hB2 : 2 < B.length)
    (hBne : B ≠ [])
    (hAd : ∀ c ∈ A, isDigitCh c = true) (hBd : ∀ c ∈ B, isDigitCh c = true) :
    parseRupiah (String.mk ('R' :: 'p' :: ' ' :: (A ++ '.' :: B))) =
      some ((charsToNat (A ++ B) : ℚ)) ∧
    parseRupiah (String.mk ('R' :: 'p' :: ' ' :: ('-' :: (A ++ '.' :: B)))) =
      some (-(charsToNat (A ++ B) : ℚ)) := by
  have hlow : ∀ c ∈ A ++ '.' :: B, Char.toLower c = c := by
    intro c hcm
    rcases List.mem_append.mp hcm with h | h
    · exact toLower_of_digit (hAd c h)
    rcases List.mem_cons.mp h with rfl | h
    · decide
    · exact toLower_of_digit (hBd c h)
  have hlast : ∀ c, (A ++ '.' :: B).getLast? = some c → isWs c = false := by
    intro c hc
    rw [show A ++ '.' :: B = (A ++ ['.']) ++ B from by simp,
      getLast?_append_ne hBne] at hc
    exact digit_not_ws (hBd c (mem_of_getLastSome hc))
  have hmem : ∀ x ∈ A ++ '.' :: B, isDigitCh x = true ∨ x ∈ (['-', '.'] : List Char) := by
    intro x hx
    rcases List.mem_append.mp hx with h | h
    · exact Or.inl (hAd x h)
    rcases List.mem_cons.mp h with rfl | h
    · right; simp
    · exact Or.inl (hBd x h)
  have hhead : ∀ c, (A ++ '.' :: B).head? = some c → isWs c = false := by
    intro c hc
    cases hAc : A with
    | nil => exact absurd hAc hA
    | cons a t =>
      rw [hAc, List.cons_append, List.head?_cons] at hc
      have h := Option.some_inj.mp hc
      rw [← h]
      exact digit_not_ws (hAd a (by rw [hAc]; simp))
  constructor
  · rw [parseRupiah_no_unit (by simp [hA]) hlow hhead hlast hmem,
      parsePlain_dot_grouped hA hB2 hAd hBd]
  · rw [parseRupiah_no_unit (show ('-' :: (A ++ '.' :: B) : List Char) ≠ [] from by simp)
      (by
        intro c hcm
        rcases List.mem_cons.mp hcm with rfl | h
        · decide
        · exact hlow c h)
      (by
        intro c hc
        rw [List.head?_cons] at hc
        have h := Option.some_inj.mp hc
        rw [← h]
        decide)
      (by
        intro c hc
        rw [show ('-' :: (A ++ '.' :: B) : List Char) = ['-'] ++ (A ++ '.' :: B) from rfl,
          getLast?_append_ne (by simp [hA])] at hc
        exact hlast c hc)
      (by
        intro x hx
        rcases List.mem_cons.mp hx with rfl | hx
        · right; simp
        · exact hmem x hx),
      parsePlain_dot_grouped_neg hA hB2 hAd hBd]

/-- Integer amounts with `1000 ≤ |a| < 100000` are rendered with one
grouping dot and parsed back exactly (the dot is read as a thousands
separator). -/
theorem compact_parse_grouped (a : ℤ) (h1 : 1000 ≤ a.natAbs) (h2 : a.natAbs < 100000) :
    parseRupiah (formatCompact (a : ℚ)) = some (a : ℚ) := by
  have habs : |(a : ℚ)| = (a.natAbs : ℚ) := by rw [Int.cast_natAbs, Int.cast_abs]
  have hge : (1000 : ℚ) ≤ |(a : ℚ)| := by rw [habs]; exact_mod_cast h1
  have hlt : |(a : ℚ)| < 100000 := by rw [habs]; exact_mod_cast h2
  have hn1 : ¬((1000000000000 : ℚ) ≤ |(a : ℚ)|) := by linarith
  have hn2 : ¬((1000000000 : ℚ) ≤ |(a : ℚ)|) := by linarith
  have hn3 : ¬((1000000 : ℚ) ≤ |(a : ℚ)|) := by linarith
  have hn4 : ¬((100000 : ℚ) ≤ |(a : ℚ)|) := not_le.mpr hlt
  have hD_dig : ∀ c ∈ natToChars a.natAbs, isDigitCh c = true :=
    fun c hc => natToChars_digits c hc
  have hfc : formatCompact (a : ℚ) = String.mk ('R' :: 'p' :: ' ' ::
      (if (a : ℚ) < 0 then '-' :: group3 '.' (natToChars a.natAbs)
       else group3 '.' (natToChars a.natAbs))) := by
    simp only [formatCompact, hn1, hn2, hn3, hn4, hge, if_true, if_false]
    rw [habs, jsToString_natCast]
    by_cases hneg : (a : ℚ) < 0
    · simp [hneg]
    · simp [hneg]
  rw [hfc]
  rcases lt_or_ge a.natAbs 10000 with h4 | h5d
  · have hlen4 : (natToChars a.natAbs).length = 4 := by
      have hx := natToChars_length (show 10 ^ 3 ≤ a.natAbs from le_trans (by norm_num) h1)
        (show a.natAbs < 10 ^ (3 + 1) from lt_of_lt_of_le h4 (by norm_num))
      omega
    obtain ⟨d1, d2, d3, d4, hD⟩ := list_len4 hlen4
    have hd1 : isDigitCh d1 = true := hD_dig d1 (by rw [hD]; simp)
    have hd2 : isDigitCh d2 = true := hD_dig d2 (by rw [hD]; simp)
    have hd3 : isDigitCh d3 = true := hD_dig d3 (by rw [hD]; simp)
    have hd4 : isDigitCh d4 = true := hD_dig d4 (by rw [hD]; simp)
    have hAd : ∀ c ∈ ([d1] : List Char), isDigitCh c = true := by
      intro c hc
      obtain rfl : c = d1 := List.mem_singleton.mp hc
      exact hd1
    have hBd : ∀ c ∈ ([d2, d3, d4] : List Char), isDigitCh c = true := by
      intro c hc
      rcases List.mem_cons.mp hc with rfl | hc
      · exact hd2
      rcases List.mem_cons.mp hc with rfl | hc
      · exact hd3
      rcases List.mem_cons.mp hc with rfl | hc
      · exact hd4
      · simp at hc
    have hg : group3 '.' (natToChars a.natAbs) = [d1] ++ '.' :: [d2, d3, d4] := by
      rw [hD, group3_four hd1 hd2 hd3 hd4]
      rfl
    have hcore := compact_parse_grouped_core (show ([d1] : List Char) ≠ [] from by simp)
      (by simp) (by simp) hAd hBd
    have hval : ((charsToNat ([d1] ++ [d2, d3, d4]) : ℕ) : ℚ) = (a.natAbs : ℚ) := by
      rw [show ([d1] ++ [d2, d3, d4] : List Char) = [d1, d2, d3, d4] from rfl, ← hD,
        charsToNat_natToChars]
    by_cases hneg : (a : ℚ) < 0
    · rw [if_pos hneg, hg, hcore.2, hval]
      congr 1
      rw [← habs, abs_of_neg hneg]
      ring
    · rw [if_neg hneg, hg, hcore.1, hval]
      congr 1
      rw [← habs, abs_of_nonneg (not_lt.mp hneg)]
  · have hlen5 : (natToChars a.natAbs).length = 5 := by
      have hx := natToChars_length (show 10 ^ 4 ≤ a.natAbs from le_trans (by norm_num) h5d)
        (show a.natAbs < 10 ^ (4 + 1) from lt_of_lt_of_le h2 (by norm_num))
      omega
    obtain ⟨d1, d2, d3, d4, d5, hD⟩ := list_len5 hlen5
    have hd1 : isDigitCh d1 = true := hD_dig d1 (by rw [hD]; simp)
    have hd2 : isDigitCh d2 = true := hD_dig d2 (by rw [hD]; simp)
    have hd3 : isDigitCh d3 = true := hD_dig d3 (by rw [hD]; simp)
    have hd4 : isDigitCh d4 = true := hD_dig d4 (by rw [hD]; simp)
    have hd5 : isDigitCh d5 = true := hD_dig d5 (by rw [hD]; simp)
    have hAd : ∀ c ∈ ([d1, d2] : List Char), isDigitCh c = true := by
      intro c hc
      rcases List.mem_cons.mp hc with rfl | hc
      · exact hd1
      rcases List.mem_cons.mp hc with rfl | hc
      · exact hd2
      · simp at hc
    have hBd : ∀ c ∈ ([d3, d4, d5] : List Char), isDigitCh c = true := by
      intro c hc
      rcases List.mem_cons.mp hc with rfl | hc
      · exact hd3
      rcases List.mem_cons.mp hc with rfl | hc
      · exact hd4
      rcases List.mem_cons.mp hc with rfl | hc
      · exact hd5
      · simp at hc
    have hg : group3 '.' (natToChars a.natAbs) = [d1, d2] ++ '.' :: [d3, d4, d5] := by
      rw [hD, group3_five hd1 hd2 hd3 hd4 hd5]
      rfl
    have hcore := compact_parse_grouped_core
      (show ([d1, d2] : List Char) ≠ [] from by simp) (by simp) (by simp) hAd hBd
    have hval : ((charsToNat ([d1, d2] ++ [d3, d4, d5]) : ℕ) : ℚ) = (a.natAbs : ℚ) := by
      rw [show ([d1, d2] ++ [d3, d4, d5] : List Char) = [d1, d2, d3, d4, d5] from rfl,
        ← hD, charsToNat_natToChars]
    by_cases hneg : (a : ℚ) < 0
    · rw [if_pos hneg, hg, hcore.2, hval]
      congr 1
      rw [← habs, abs_of_neg hneg]
      ring
    · rw [if_neg hneg, hg, hcore.1, hval]
      congr 1
      rw [← habs, abs_of_nonneg (not_lt.mp hneg)]

/-- **C3 (amended).** For every integer amount `a` with `|a| < 10^15`
(keeping the embedding's decimal rendering exact), the round trip
`parseRupiah (formatCompact a)` yields a number, and that number differs
from `a` by at most half of the smallest increment displayed by the
one-decimal-place compaction at `a`'s magnitude (`compactHalfIncrement`):
zero below `100000`, and `50` / `50000` / `5·10^7` / `5·10^10` in the
ribu / juta / miliar / triliun branches. -/
theorem compact_roundtrip_int (a : ℤ) (hbound : a.natAbs < 10 ^ 15) :
    ∃ q : ℚ, parseRupiah (formatCompact (a : ℚ)) = some q ∧
      |q - (a : ℚ)| ≤ compactHalfIncrement (a : ℚ) := by
  have habs : |(a : ℚ)| = (a.natAbs : ℚ) := by rw [Int.cast_natAbs, Int.cast_abs]
  rcases lt_or_ge a.natAbs 1000 with hc | hc
  · refine ⟨(a : ℚ), compact_parse_plain a hc, ?_⟩
    rw [sub_self, abs_zero]
    unfold compactHalfIncrement
    split_ifs <;> norm_num
  rcases lt_or_ge a.natAbs 100000 with hc2 | hc2
  · refine ⟨(a : ℚ), compact_parse_grouped a hc hc2, ?_⟩
    rw [sub_self, abs_zero]
    unfold compactHalfIncrement
    split_ifs <;> norm_num
  rcases lt_or_ge a.natAbs 1000000 with hc3 | hc3
  · have h1 : (100000 : ℚ) ≤ |(a : ℚ)| := by rw [habs]; exact_mod_cast hc2
    have h2 : |(a : ℚ)| < 1000000 := by rw [habs]; exact_mod_cast hc3
    refine ⟨_, compact_parse_ribu h1 h2, ?_⟩
    refine le_trans (compact_unit_bound (show (0 : ℚ) < 1000 by norm_num)
      (rfl : |((a : ℤ) : ℚ)| / 1000 = |((a : ℤ) : ℚ)| / 1000)) ?_
    rw [compactHalfIncrement, if_neg (by linarith), if_neg (by linarith),
      if_neg (not_le.mpr h2), if_pos h1]
    norm_num
  rcases lt_or_ge a.natAbs 1000000000 with hc4 | hc4
  · have h1 : (1000000 : ℚ) ≤ |(a : ℚ)| := by rw [habs]; exact_mod_cast hc3
    have h2 : |(a : ℚ)| < 1000000000 := by rw [habs]; exact_mod_cast hc4
    refine ⟨_, compact_parse_juta h1 h2, ?_⟩
    refine le_trans (compact_unit_bound (show (0 : ℚ) < 1000000 by norm_num)
      (rfl : |((a : ℤ) : ℚ)| / 1000000 = |((a : ℤ) : ℚ)| / 1000000)) ?_
    rw [compactHalfIncrement, if_neg (by linarith), if_neg (not_le.mpr h2), if_pos h1]
    norm_num
  rcases lt_or_ge a.natAbs 1000000000000 with hc5 | hc5
  · have h1 : (1000000000 : ℚ) ≤ |(a : ℚ)| := by rw [habs]; exact_mod_cast hc4
    have h2 : |(a : ℚ)| < 1000000000000 := by rw [habs]; exact_mod_cast hc5
    refine ⟨_, compact_parse_miliar h1 h2, ?_⟩
    refine le_trans (compact_unit_bound (show (0 : ℚ) < 1000000000 by norm_num)
      (rfl : |((a : ℤ) : ℚ)| / 1000000000 = |((a : ℤ) : ℚ)| / 1000000000)) ?_
    rw [compactHalfIncrement, if_neg (not_le.mpr h2), if_pos h1]
    norm_num
  · have h1 : (1000000000000 : ℚ) ≤ |(a : ℚ)| := by rw [habs]; exact_mod_cast hc5
    refine ⟨_, compact_parse_triliun h1, ?_⟩
    refine le_trans (compact_unit_bound (show (0 : ℚ) < 1000000000000 by norm_num)
      (rfl : |((a : ℤ) : ℚ)| / 1000000000000 = |((a : ℤ) : ℚ)| / 1000000000000)) ?_
    rw [compactHalfIncrement, if_pos h1]
    norm_num

/-- Witness for C3 at the amount `1500000` (rendered "Rp 1,5 juta" and
parsed back exactly). -/
theorem compact_roundtrip_int_witness :
    (1500000 : ℤ).natAbs < 10 ^ 15 ∧
    ∃ q : ℚ, parseRupiah (formatCompact ((1500000 : ℤ) : ℚ)) = some q ∧
      |q - ((1500000 : ℤ) : ℚ)| ≤ compactHalfIncrement ((1500000 : ℤ) : ℚ) :=
  ⟨by norm_num, compact_roundtrip_int 1500000 (by norm_num)⟩

end IndoDev
